import Mathlib

/-!
Shallow embedding of `src/verification/script.py` (UPPAAL verification campaign
driver) and proofs about it.  Strings are modelled as `List Char`; Python `int`
is `Int`; Python `float` values that arise from decoding engine output are
modelled as `ℚ` (the decoded literals are exact decimals); fallible code paths
(places where the Python code would raise an exception) return `Option`.
-/

set_option maxHeartbeats 1000000
set_option synthInstance.maxSize 512

namespace FM

/-! ## Decimal rendering (Python `str` of an integer) and its inverse -/

/-- The decimal digit character for a value below ten. -/

def digitChar (n : Nat) : Char :=
  match n with
  | 0 => '0' | 1 => '1' | 2 => '2' | 3 => '3' | 4 => '4'
  | 5 => '5' | 6 => '6' | 7 => '7' | 8 => '8' | 9 => '9'
  | _ => '*'

/-- Numeric value of a decimal digit character. -/

def charVal (c : Char) : Nat :=
  match c with
  | '0' => 0 | '1' => 1 | '2' => 2 | '3' => 3 | '4' => 4
  | '5' => 5 | '6' => 6 | '7' => 7 | '8' => 8 | '9' => 9
  | _ => 0

/-- Is `c` one of the ten decimal digit characters?  (Python regex `\d`,
`str.isdigit` on ASCII). -/

def isDigitChar (c : Char) : Bool :=
  '0' ≤ c && c ≤ '9'

/-- Fuelled digit rendering (structural recursion so that the kernel can
evaluate it; the fuel `n + 1` always suffices). -/

def natDigitsAux (fuel n : Nat) : List Char :=
  match fuel with
  | 0 => []
  | fuel + 1 =>
    if n < 10 then [digitChar n]
    else natDigitsAux fuel (n / 10) ++ [digitChar (n % 10)]

/-- Decimal digit string of a natural number, most significant digit first;
models Python `str(n)` for `n ≥ 0`. -/

def natDigits (n : Nat) : List Char := natDigitsAux (n + 1) n

/-- Python `str(n)` for an `int` `n`: a minus sign followed by the digits of
`-n` when `n` is negative, the plain digits otherwise. -/

def intStr (n : Int) : List Char :=
  if n < 0 then '-' :: natDigits (-n).toNat else natDigits n.toNat

/-- The value read off a digit string by the usual left fold. -/

def digitsVal (a : Nat) (l : List Char) : Nat :=
  l.foldl (fun a c => 10 * a + charVal c) a

/-! ## Digit-run parsing (inverse of decimal rendering) -/

/-- Consume a maximal run of decimal digits, accumulating their value. -/

def parseNatAux : List Char → Nat → Nat × List Char
  | [], a => (a, [])
  | c :: cs, a =>
    if isDigitChar c then parseNatAux cs (10 * a + charVal c) else (a, c :: cs)

/-- A position at which a digit run must stop: end of input or a non-digit. -/

def noDigitHead (l : List Char) : Prop :=
  ∀ c, l.head? = some c → isDigitChar c = false

/-- Parse a Python-printed integer (optional minus sign, then digits). -/

def parseInt (s : List Char) : Option (Int × List Char) :=
  match s with
  | [] => none
  | c :: cs =>
    if c = '-' then
      match cs with
      | c2 :: _ =>
        if isDigitChar c2 then
          let p := parseNatAux cs 0
          some (-(p.1 : Int), p.2)
        else none
      | [] => none
    else if isDigitChar c then
      let p := parseNatAux (c :: cs) 0
      some ((p.1 : Int), p.2)
    else none

/-! ## Variants and `to_array` / `gen_name` (script.py lines 78-82, 193-200) -/

/-- One concrete parameter assignment (the dicts yielded by
`generate_extensive_project` / built by `generate_projects`). -/

structure Variant where
  speed : Int
  disks : Int
  policy : Int
  out_sensors : List Int
  stations_processing : List Int
deriving DecidableEq, Repr

/-- `sep.join(str(v) for v in values)`. -/

def joinSep (sep : List Char) : List Int → List Char
  | [] => []
  | [v] => intStr v
  | v :: vs => intStr v ++ sep ++ joinSep sep vs

/-- `to_array` from script.py: braces with `, ` separators normally, square
brackets with `,` separators in short form. -/

def to_array (values : List Int) (short : Bool) : List Char :=
  if !short then '\x7b' :: (joinSep (", ".toList) values ++ ['\x7d'])
  else '[' :: (joinSep [','] values ++ [']'])

/-- Python slice `s[-6:-4]` (used by `gen_name` on the property file name). -/

def pySlice64 (s : List Char) : List Char :=
  (s.take (s.length - 4)).drop (s.length - 6)

/-- `gen_name` from script.py:
`'s{}-d{}-p{}-os{}-sp{}-{}'.format(speed, disks, policy,
to_array(out_sensors, short=True), to_array(stations_processing, short=True),
property[-6:-4])`. -/

def gen_name (values : Variant) (property : List Char) : List Char :=
  's' :: (intStr values.speed ++
    ('-' :: 'd' :: (intStr values.disks ++
      ('-' :: 'p' :: (intStr values.policy ++
        ('-' :: 'o' :: 's' :: (to_array values.out_sensors true ++
          ('-' :: 's' :: 'p' :: (to_array values.stations_processing true ++
            ('-' :: pySlice64 property))))))))))

/-! ## Decoding a variant name back into its assignment -/

/-- Consume an expected literal character sequence. -/

def expectChars : List Char → List Char → Option (List Char)
  | [], s => some s
  | _ :: _, [] => none
  | c :: cs, x :: xs => if x = c then expectChars cs xs else none

/-- Parse a comma-separated nonempty integer list up to a closing bracket. -/

def parseListAux : Nat → List Char → Option (List Int × List Char)
  | 0, _ => none
  | fuel + 1, s =>
    match parseInt s with
    | none => none
    | some (v, rest) =>
      match rest with
      | [] => none
      | c :: rest2 =>
        if c = ',' then
          match parseListAux fuel rest2 with
          | some (vs, r) => some (v :: vs, r)
          | none => none
        else if c = ']' then some ([v], rest2)
        else none

/-- Parse a short-form array `[v1,v2,...]` as printed by `to_array`. -/

def parseArray (s : List Char) : Option (List Int × List Char) :=
  match s with
  | [] => none
  | c :: s1 =>
    if c = '[' then
      match s1 with
      | [] => none
      | c2 :: _ =>
        if c2 = ']' then some ([], s1.tail)
        else parseListAux s1.length s1
    else none

/-- Decode a `gen_name`-produced variant name back to the assignment. -/

def parse_name (s : List Char) : Option Variant := do
  let s1 ← expectChars ['s'] s
  let (speed, r1) ← parseInt s1
  let s2 ← expectChars ['-', 'd'] r1
  let (disks, r2) ← parseInt s2
  let s3 ← expectChars ['-', 'p'] r2
  let (policy, r3) ← parseInt s3
  let s4 ← expectChars ['-', 'o', 's'] r3
  let (osv, r4) ← parseArray s4
  let s5 ← expectChars ['-', 's', 'p'] r4
  let (spv, _r5) ← parseArray s5
  some ⟨speed, disks, policy, osv, spv⟩

/-! ## Parameter space generation (script.py lines 84-116) -/

/-- Python `range(lo, hi + 1)` as a list of integers. -/

def intRange (lo hi : Int) : List Int :=
  (List.range (hi + 1 - lo).toNat).map (fun i : Nat => lo + (i : Int))

/-- An inclusive `min`/`max` range for a scalar parameter. -/

structure ScalarRange where
  min : Int
  max : Int
deriving Repr, DecidableEq

/-- Componentwise inclusive `min`/`max` ranges for a vector parameter. -/

structure VectorRange where
  min : List Int
  max : List Int
deriving Repr, DecidableEq

/-- The `extensive` entry of the configuration. -/

structure ExtensiveConfig where
  speed : ScalarRange
  disks : ScalarRange
  policy : ScalarRange
  out_sensors : VectorRange
  stations_processing : VectorRange
deriving Repr, DecidableEq

/-- `get_space_length(max, min)` from script.py: the product of
`max[i] + 1 - min[i]` over the indices of `max`.  (Faithful whenever
`len(min) ≥ len(max)`; Python raises `IndexError` otherwise.) -/

def get_space_length (mx mn : List Int) : Int :=
  ((mx.zip mn).map (fun p => p.1 + 1 - p.2)).prod

/-- `get_extensive_length` from script.py. -/

def get_extensive_length (c : ExtensiveConfig) : Int :=
  (c.speed.max + 1 - c.speed.min) * (c.disks.max + 1 - c.disks.min) *
    (c.policy.max + 1 - c.policy.min) *
    get_space_length c.out_sensors.max c.out_sensors.min *
    get_space_length c.stations_processing.max c.stations_processing.min

/-- `itertools.product` over a list of integer lists, leftmost factor slowest. -/

def listProd : List (List Int) → List (List Int)
  | [] => [[]]
  | l :: ls => l.flatMap (fun x => (listProd ls).map (x :: ·))

/-- `get_space(min, max)` from script.py: the Cartesian product of
`range(min[i], max[i] + 1)` over the indices of `min`.  (Faithful whenever
`len(max) ≥ len(min)`.) -/

def get_space (mn mx : List Int) : List (List Int) :=
  listProd ((mn.zip mx).map (fun p => intRange p.1 p.2))

/-- `generate_extensive_project` from script.py: five nested loops, scalar
parameters outermost, yielding one assignment dict per combination. -/

def generate_extensive_project (c : ExtensiveConfig) : List Variant :=
  (intRange c.speed.min c.speed.max).flatMap fun speed =>
    (intRange c.disks.min c.disks.max).flatMap fun disks =>
      (intRange c.policy.min c.policy.max).flatMap fun policy =>
        (get_space c.out_sensors.min c.out_sensors.max).flatMap fun sensors =>
          (get_space c.stations_processing.min c.stations_processing.max).map
            fun stations => ⟨speed, disks, policy, sensors, stations⟩

/-- All `(min, max)` component pairs of an extensive configuration, scalars
first; this is the index set of the spec's "product over all components". -/

def componentRanges (c : ExtensiveConfig) : List (Int × Int) :=
  [(c.speed.min, c.speed.max), (c.disks.min, c.disks.max),
    (c.policy.min, c.policy.max)] ++
    c.out_sensors.min.zip c.out_sensors.max ++
    c.stations_processing.min.zip c.stations_processing.max

/-- The spec's count: the product of `max − min + 1` over every scalar
parameter and every vector component. -/

def componentCount (c : ExtensiveConfig) : Int :=
  ((componentRanges c).map (fun p => p.2 + 1 - p.1)).prod

/-! ## Scenario selection and the main flow (script.py lines 157-170, 324-379) -/

/-- A configuration document: an optional `extensive` range entry plus the
named scenarios, each a complete parameter assignment. -/

structure Config where
  extensive : Option ExtensiveConfig
  scenarios : List (List Char × Variant)

/-- Result of `generate_projects`: either the variant list with its reported
count, the `Configuration not found` branch (which returns `(None, 0)`), or
the uncaught `KeyError` raised when `scenario == 'extensive'` but the
configuration has no `extensive` entry. -/

inductive GenResult where
  | found (variants : List Variant) (len : Int)
  | notFound
  | keyError
deriving Repr, DecidableEq

/-- `generate_projects` from script.py lines 157-170. -/

def generate_projects (config : Config) (scenario : List Char) : GenResult :=
  if scenario = "extensive".toList then
    match config.extensive with
    | some ext =>
      .found (generate_extensive_project ext) (get_extensive_length ext)
    | none => .keyError
  else
    match config.scenarios.lookup scenario with
    | some v => .found [v] 1
    | none => .notFound

/-- What the `__main__` block does after the three input files were read:
the configuration-error messages it prints, how many engine invocations it
dispatches, and the process exit code.  Engine invocations are assumed to
exit with status 0 (engine failures are a different code path). -/

structure MainOutcome where
  messages : List (List Char)
  engineInvocations : Nat
  exitCode : Nat
deriving Repr, DecidableEq

/-- script.py lines 367-379: `generate_projects` is consulted; when it
returns `None` the three `run_all_*` calls are skipped, the scratch
directories are removed, and the script falls off the end (exit status 0). -/

def mainAfterSetup (config : Config) (scenario : List Char)
    (queries probabilities simulations : List (List Char))
    (noQueries noProbabilities noSimulations : Bool) : MainOutcome :=
  match generate_projects config scenario with
  | .notFound => ⟨["Configuration not found".toList], 0, 0⟩
  | .keyError => ⟨[], 0, 1⟩
  | .found projects _len =>
    let q := if !noQueries && decide (0 < queries.length) then
      projects.length * queries.length else 0
    let p := if !noProbabilities && decide (0 < probabilities.length) then
      projects.length * probabilities.length else 0
    let s := if !noSimulations && decide (0 < simulations.length) then
      projects.length * simulations.length else 0
    ⟨[], q + p + s, 0⟩

/-! ## Report construction machinery (dicts with insertion order + sorting) -/

/-- Python string comparison: code-point lexicographic `<=`. -/

def listLe : List Char → List Char → Bool
  | [], _ => true
  | _ :: _, [] => false
  | a :: as, b :: bs => if a = b then listLe as bs else decide (a < b)

/-- Assignment `d[k] = v` on a Python dict modelled as an association list
in insertion order: overwrite in place if present, append otherwise. -/

def dictInsert {β : Type} (m : List (List Char × β)) (k : List Char) (v : β) :
    List (List Char × β) :=
  if m.any (fun p => decide (p.1 = k)) then
    m.map (fun p => if p.1 = k then (k, v) else p)
  else m ++ [(k, v)]

/-- The loop body shared by the three report builders:
`if project not in projects: projects[project] = {}` followed by
`projects[project][key] = entry`. -/

def nestedInsert {E : Type} (acc : List (List Char × List (List Char × E)))
    (proj key : List Char) (e : E) : List (List Char × List (List Char × E)) :=
  if acc.any (fun p => decide (p.1 = proj)) then
    acc.map (fun p => if p.1 = proj then (p.1, dictInsert p.2 key e) else p)
  else acc ++ [(proj, [(key, e)])]

/-- Folding the results dict (in iteration order) into the nested dict. -/

def groupResults {E : Type} (results : List ((List Char × List Char) × E)) :
    List (List Char × List (List Char × E)) :=
  results.foldl (fun acc r => nestedInsert acc r.1.1 r.1.2 r.2) []

/-- Stable insertion of a dict item into a key-sorted list. -/

def insertKey {E : Type} (a : List Char × E) :
    List (List Char × E) → List (List Char × E)
  | [] => [a]
  | b :: bs => if listLe a.1 b.1 then a :: b :: bs else b :: insertKey a bs

/-- Python `dict(sorted(d.items()))` (keys are pairwise distinct, so the
comparison never reaches the values): a stable sort by key, modelled by
insertion sort. -/

def sortByKey {E : Type} : List (List Char × E) → List (List Char × E)
  | [] => []
  | a :: as => insertKey a (sortByKey as)

/-- The two-level sort every report builder applies before emission. -/

def sortReport {E : Type} (m : List (List Char × List (List Char × E))) :
    List (List Char × List (List Char × E)) :=
  sortByKey (m.map (fun p => (p.1, sortByKey p.2)))

/-- The entries recorded for one project, in results-iteration order. -/

def entriesOf {E : Type} (p : List Char)
    (rs : List ((List Char × List Char) × E)) : List (List Char × E) :=
  rs.filterMap (fun r => if r.1.1 = p then some (r.1.2, r.2) else none)

/-- First-occurrence order of keys (the iteration order of a Python dict
built by repeated insertion). -/

def keysInOrder : List (List Char) → List (List Char)
  | [] => []
  | k :: ks => k :: (keysInOrder ks).filter (fun x => decide (x ≠ k))

/-- The grouped nested dict in closed form: projects in first-occurrence
order, each with its entries in results-iteration order. -/

def canonicalGroup {E : Type} (rs : List ((List Char × List Char) × E)) :
    List (List Char × List (List Char × E)) :=
  (keysInOrder (rs.map (fun r => r.1.1))).map (fun p => (p, entriesOf p rs))

/-- The shared shape of `print_queries` / `print_probabilities`: decode each
result into an entry, group by project then key, and two-level sort. -/

def buildReport {E : Type} (entry : List Char → List Char → List Char → E)
    (results : List ((List Char × List Char) × (List Char × List Char))) :
    List (List Char × List (List Char × E)) :=
  sortReport (groupResults (results.map (fun r => (r.1, entry r.1.2 r.2.1 r.2.2))))

/-! ## Decoding engine stdout (script.py lines 236-287) -/

/-- The fixed success marker the script greps stdout for. -/

def satisfiedMarker : List Char := "Formula is satisfied".toList

/-- Python substring test `needle in hay`. -/

def containsSub (hay needle : List Char) : Bool :=
  (List.range (hay.length + 1)).any (fun i => needle.isPrefixOf (hay.drop i))

/-- Python `int(s)` on an optional sign followed by digits. -/

def pyIntOpt (s : List Char) : Option Int :=
  match parseInt s with
  | some (v, []) => some v
  | _ => none

/-- Python list indexing `l[i]` with negative indices counting from the end
(`none` models `IndexError`). -/

def pyIndex {α : Type} (l : List α) (i : Int) : Option α :=
  if 0 ≤ i then l[i.toNat]?
  else if (-i).toNat ≤ l.length then l[l.length - (-i).toNat]?
  else none

/-- `formulas[int(key)]`: recover the formula from the index in the property
file name (`none` models `ValueError` / `IndexError`). -/

def lookupFormula (fs : List (List Char)) (key : List Char) : Option (List Char) :=
  (pyIntOpt key).bind (fun i => pyIndex fs i)

/-- The entry `print_queries` stores:
`{'query': queries[int(query)], 'result': 'Formula is satisfied' in result,
'time': time}`. -/

structure QueryEntry where
  query : Option (List Char)
  result : Bool
  time : List Char
deriving Repr, DecidableEq

def queryEntry (queries : List (List Char)) (key res time : List Char) : QueryEntry :=
  ⟨lookupFormula queries key, containsSub res satisfiedMarker, time⟩

/-- Everything `print_queries` produces: the sorted nested report, the
run-level `failed` flag, and which banner is printed. -/

structure QueriesOutput where
  report : List (List Char × List (List Char × QueryEntry))
  failed : Bool
  banner : List Char
deriving Repr, DecidableEq

/-- `print_queries` (script.py lines 236-256).  Note the flag: the code runs
`if not result:` on the RAW stdout string `result` (true exactly when the
string is empty), not on the decoded boolean stored in the entry.  The
banner texts are abbreviated without the apostrophe. -/

def print_queries
    (results : List ((List Char × List Char) × (List Char × List Char)))
    (queries : List (List Char)) : QueriesOutput :=
  let report := buildReport (queryEntry queries) results
  let failed := results.any (fun r => decide (r.2.1 = []))
  ⟨report, failed,
    if failed then "Some properties are not satisfied!".toList
    else "All the properties are satisfied!".toList⟩

/-- `str.split(sep)` (fuelled; the fuel is the input length, which always
suffices since every step consumes at least one character). -/

def splitOnAux (sep : List Char) : Nat → List Char → List Char → List (List Char)
  | 0, s, acc => [acc.reverse ++ s]
  | fuel + 1, s, acc =>
    match s with
    | [] => [acc.reverse]
    | c :: rest =>
      if sep.isPrefixOf (c :: rest) then
        acc.reverse :: splitOnAux sep fuel (List.drop sep.length (c :: rest)) []
      else
        splitOnAux sep fuel rest (c :: acc)

def pySplit (sep s : List Char) : List (List Char) :=
  splitOnAux sep s.length s []

/-- The `'\r\n'` separator used by `result.split('\r\n')`. -/

def crlf : List Char := ['\r', '\n']

def digitsToNat (ds : List Char) : Nat := digitsVal 0 ds

/-- Python `float(s)` on the decimal/scientific strings matched by the
script's regexes, as an exact rational. -/

def parseFloat (s : List Char) : Option ℚ :=
  let p1 :=
    match s with
    | '-' :: rest => (true, rest)
    | _ => (false, s)
  let neg := p1.1
  let s1 := p1.2
  let ip := s1.takeWhile isDigitChar
  let r1 := s1.dropWhile isDigitChar
  let p2 :=
    match r1 with
    | '.' :: rest => (rest.takeWhile isDigitChar, rest.dropWhile isDigitChar)
    | _ => ([], r1)
  let fp := p2.1
  let r2 := p2.2
  if ip.length + fp.length = 0 then none
  else
    let mantissa : ℚ :=
      (digitsToNat ip : ℚ) + (digitsToNat fp : ℚ) / ((10 : ℚ) ^ fp.length)
    let signed := if neg then -mantissa else mantissa
    match r2 with
    | [] => some signed
    | 'e' :: rest =>
      let p3 :=
        match rest with
        | '-' :: r => (true, r)
        | '+' :: r => (false, r)
        | _ => (false, rest)
      let ed := p3.2.takeWhile isDigitChar
      if ed = [] ∨ p3.2.dropWhile isDigitChar ≠ [] then none
      else
        let ev : ℚ := (10 : ℚ) ^ (digitsToNat ed)
        some (if p3.1 then signed / ev else signed * ev)
    | _ => none

/-- Character class `[\d.e-]` of the interval regex. -/

def floatClassChar (c : Char) : Bool :=
  isDigitChar c || c = '.' || c = 'e' || c = '-'

/-- Attempt the interval regex `\[([\d.e-]+),([\d.e-]+)\]\s+\((\d+)\% CI\)`
anchored at the start of `s`; returns the three captured groups. -/

def matchIntervalAt (s : List Char) : Option (List Char × List Char × List Char) :=
  match s with
  | '[' :: r1 =>
    let a := r1.takeWhile floatClassChar
    let r2 := r1.dropWhile floatClassChar
    if a = [] then none else
    match r2 with
    | ',' :: r3 =>
      let b := r3.takeWhile floatClassChar
      let r4 := r3.dropWhile floatClassChar
      if b = [] then none else
      match r4 with
      | ']' :: r5 =>
        let sp := r5.takeWhile (fun c => c.isWhitespace)
        let r6 := r5.dropWhile (fun c => c.isWhitespace)
        if sp = [] then none else
        match r6 with
        | '(' :: r7 =>
          let ds := r7.takeWhile isDigitChar
          let r8 := r7.dropWhile isDigitChar
          if ds = [] then none else
          if ("% CI)".toList).isPrefixOf r8 then some (a, b, ds) else none
        | _ => none
      | _ => none
    | _ => none
  | _ => none

/-- Leftmost match of an anchored matcher (`re.findall(...)[0]`). -/

def scanFirst {α : Type} (f : List Char → Option α) : List Char → Option α
  | [] => f []
  | c :: rest =>
    match f (c :: rest) with
    | some x => some x
    | none => scanFirst f rest

/-- Attempt the values regex
`Values in \[(\d+),(\d+)\] mean=(\d+) steps=1: (.+)` anchored at the start
of `s`. -/

def matchValuesAt (s : List Char) :
    Option (List Char × List Char × List Char × List Char) :=
  match expectChars ("Values in [".toList) s with
  | none => none
  | some r1 =>
    let lo := r1.takeWhile isDigitChar
    let r2 := r1.dropWhile isDigitChar
    if lo = [] then none else
    match r2 with
    | ',' :: r3 =>
      let hi := r3.takeWhile isDigitChar
      let r4 := r3.dropWhile isDigitChar
      if hi = [] then none else
      match expectChars ("] mean=".toList) r4 with
      | none => none
      | some r5 =>
        let m := r5.takeWhile isDigitChar
        let r6 := r5.dropWhile isDigitChar
        if m = [] then none else
        match expectChars (" steps=1: ".toList) r6 with
        | none => none
        | some r7 =>
          let rest := r7.takeWhile (fun c => decide (c ≠ '\n'))
          if rest = [] then none else some (lo, hi, m, rest)
    | _ => none

/-- The decoded `result` field of a probability entry. -/

structure Interval where
  min : ℚ
  max : ℚ
deriving Repr, DecidableEq

structure ValuesRange where
  min : Int
  max : Int
deriving Repr, DecidableEq

structure ProbValues where
  range : ValuesRange
  mean : ℚ
  samples : List Int
deriving Repr, DecidableEq

structure ProbResult where
  outcome : Bool
  interval : Interval
  confidence : ℚ
  values : ProbValues
deriving Repr, DecidableEq

/-- The zeroed placeholder stored when the success marker is absent. -/

def probPlaceholder : ProbResult :=
  ⟨false, ⟨0, 0⟩, 0, ⟨⟨0, 0⟩, 0, []⟩⟩

/-- The success-branch / failure-branch decode of one probability stdout
(script.py lines 266-279).  `none` models the exceptions Python raises when
the marker is present but the two trailing lines do not match the regexes. -/

def decodeProbResult (res : List Char) : Option ProbResult :=
  if containsSub res satisfiedMarker then
    match pyIndex (pySplit crlf res) (-3) with
    | none => none
    | some line3 =>
      match scanFirst matchIntervalAt line3 with
      | none => none
      | some (a, b, cds) =>
        match parseFloat a, parseFloat b with
        | some mn, some mx =>
          match pyIndex (pySplit crlf res) (-2) with
          | none => none
          | some line2 =>
            match scanFirst matchValuesAt line2 with
            | none => none
            | some (lo, hi, m, restS) =>
              match (pySplit [' '] restS).mapM pyIntOpt with
              | none => none
              | some samples =>
                some ⟨true, ⟨mn, mx⟩, (digitsToNat cds : ℚ) / 100,
                  ⟨⟨(digitsToNat lo : Int), (digitsToNat hi : Int)⟩,
                    (digitsToNat m : ℚ), samples⟩⟩
        | _, _ => none
  else some probPlaceholder

/-- The entry `print_probabilities` stores per (variant, property). -/

structure ProbEntry where
  probability : Option (List Char)
  result : Option ProbResult
  time : List Char
deriving Repr, DecidableEq

def probEntry (probabilities : List (List Char)) (key res time : List Char) :
    ProbEntry :=
  ⟨lookupFormula probabilities key, decodeProbResult res, time⟩

/-- `print_probabilities` (script.py lines 258-287): decode every result,
group, and two-level sort. -/

def print_probabilities
    (results : List ((List Char × List Char) × (List Char × List Char)))
    (probabilities : List (List Char)) :
    List (List Char × List (List Char × ProbEntry)) :=
  buildReport (probEntry probabilities) results

/-- Occurrence count of `a` in `l` (explicit, instance-free formulation). -/

def countEq {α : Type} [DecidableEq α] (l : List α) (a : α) : Nat :=
  (l.filter (fun x => decide (x = a))).length

/-- Number of entries a report holds for the pair `(p, q)`. -/

def entryCount {E : Type} (rep : List (List Char × List (List Char × E)))
    (p q : List Char) : Nat :=
  (rep.map (fun pr => if pr.1 = p then countEq (pr.2.map Prod.fst) q else 0)).sum

/-- Character class `[\d.]` of the trace-pair regex. -/

def numDotChar (c : Char) : Bool := isDigitChar c || c = '.'

/-- Attempt the pair regex `\(([\d.]+),(\d+)\)` anchored at the start. -/

def matchPairAt (s : List Char) : Option (List Char × List Char × List Char) :=
  match s with
  | '(' :: r1 =>
    let x := r1.takeWhile numDotChar
    let r2 := r1.dropWhile numDotChar
    if x = [] then none else
    match r2 with
    | ',' :: r3 =>
      let y := r3.takeWhile isDigitChar
      let r4 := r3.dropWhile isDigitChar
      if y = [] then none else
      match r4 with
      | ')' :: r5 => some (x, y, r5)
      | _ => none
    | _ => none
  | _ => none

/-- `get_values.findall(line)`: every `(x,y)` pair, scanning left to right
and resuming after each match (fuelled by the input length). -/

def findPairsAux : Nat → List Char → List (List Char × List Char)
  | 0, _ => []
  | fuel + 1, s =>
    match s with
    | [] => []
    | c :: rest =>
      match matchPairAt (c :: rest) with
      | some (x, y, r) => (x, y) :: findPairsAux fuel r
      | none => findPairsAux fuel rest

def findPairs (s : List Char) : List (List Char × List Char) :=
  findPairsAux s.length s

/-- `int(value[0].split('.')[0])`: truncate the x coordinate at the first
dot; `none` models `ValueError` on an empty integer literal. -/

def truncX (x : List Char) : Option Int :=
  pyIntOpt (x.takeWhile (fun c => decide (c ≠ '.')))

/-- `'{:02d}'.format(n)`. -/

def fmtIndex (n : Nat) : List Char :=
  if n < 10 then '0' :: natDigits n else natDigits n

/-- `'values_{:02d}.csv'.format(index)`. -/

def valuesFileName (n : Nat) : List Char :=
  "values_".toList ++ fmtIndex n ++ ".csv".toList

/-- One auxiliary trace table written by `process_values`. -/

structure Artifact where
  name : List Char
  rows : List (Int × Int)
deriving Repr, DecidableEq

/-- The text content csv.writer produces for an artifact: header `x,y` then
one `x,y` data row per decoded pair, each terminated by `\n`. -/

def artifactText (a : Artifact) : List Char :=
  "x,y\n".toList ++
    a.rows.flatMap (fun r => intStr r.1 ++ (',' :: (intStr r.2 ++ ['\n'])))

/-- Evaluate a Python list comprehension that can raise: `none` as soon as
one element fails. -/

def mapMOpt {α β : Type} (f : α → Option β) : List α → Option (List β)
  | [] => some []
  | a :: as =>
    match f a with
    | none => none
    | some b =>
      match mapMOpt f as with
      | none => none
      | some bs => some (b :: bs)

/-- The while-loop of `process_values`: consume (formula, trace-line) pairs,
incrementing the global artifact index before each write.  `none` models the
`IndexError` on an odd-length block and `ValueError` in `int(...)`. -/

def valuesLoop : List (List Char) → Nat → List (List Char × List Char) →
    List Artifact →
    Option (List (List Char × List Char) × Nat × List Artifact)
  | [], index, assoc, arts => some (assoc, index, arts)
  | [_], _, _, _ => none
  | formula :: line :: rest, index, assoc, arts =>
    match mapMOpt
        (fun pr => (truncX pr.1).bind
          (fun x => (pyIntOpt pr.2).map (fun y => (x, y)))) (findPairs line) with
    | none => none
    | some rows =>
      valuesLoop rest (index + 1)
        (dictInsert assoc formula (valuesFileName (index + 1)))
        (arts ++ [⟨valuesFileName (index + 1), rows⟩])

/-- `process_values` (script.py lines 289-305): returns the
formula → artifact-name mapping, the advanced index, and the artifacts
written. -/

def process_values (res : List Char) (index : Nat) :
    Option (List (List Char × List Char) × Nat × List Artifact) :=
  match (pySplit ("Verifying formula".toList) res)[1]? with
  | none => none
  | some seg => valuesLoop (((pySplit crlf seg).drop 2).dropLast) index [] []

/-- The entry `print_simulations` stores: the formula, the marker boolean,
and the formula → artifact-name mapping (not the raw series). -/

structure SimEntry where
  simulation : Option (List Char)
  result : Bool
  series : List (List Char × List Char)
  time : List Char
deriving Repr, DecidableEq

/-- The loop of `print_simulations`, threading the global artifact index in
results-iteration order. -/

def simsLoop (simulations : List (List Char)) :
    List ((List Char × List Char) × (List Char × List Char)) → Nat →
    List (List Char × List (List Char × SimEntry)) → List Artifact →
    Option (List (List Char × List (List Char × SimEntry)) × List Artifact)
  | [], _, acc, arts => some (acc, arts)
  | r :: rest, index, acc, arts =>
    match process_values r.2.1 index with
    | none => none
    | some (values, idx2, newArts) =>
      simsLoop simulations rest idx2
        (nestedInsert acc r.1.1 r.1.2
          ⟨lookupFormula simulations r.1.2,
            containsSub r.2.1 satisfiedMarker, values, r.2.2⟩)
        (arts ++ newArts)

/-- `print_simulations` (script.py lines 307-322): decode each result
(writing trace artifacts under the running index), group, two-level sort. -/

def print_simulations
    (results : List ((List Char × List Char) × (List Char × List Char)))
    (simulations : List (List Char)) :
    Option (List (List Char × List (List Char × SimEntry)) × List Artifact) :=
  match simsLoop simulations results 0 [] [] with
  | none => none
  | some (acc, arts) => some (sortReport acc, arts)

/-! ## Property extraction and normalization (script.py lines 45-76) -/

/-- Line 51 of script.py:
`item.replace('\n', ' ').replace('\t', '')` — every newline becomes one
space, every tab is deleted. -/

def normalizeFormula (item : List Char) : List Char :=
  (item.map (fun c => if c = '\n' then ' ' else c)).filter
    (fun c => decide (c ≠ '\t'))

/-- `parse_project` (script.py lines 45-51) with the XML traversal
abstracted to the list of formula-node texts in document order: keep the
formulas with the given prefix, then normalize each. -/

def parse_project (formulas : List (List Char)) (start : List Char) :
    List (List Char) :=
  (formulas.filter (fun f => start.isPrefixOf f)).map normalizeFormula

def get_queries (formulas : List (List Char)) : List (List Char) :=
  parse_project formulas ("A".toList)

def get_probabilities (formulas : List (List Char)) : List (List Char) :=
  parse_project formulas ("Pr".toList)

def get_simulations (formulas : List (List Char)) : List (List Char) :=
  parse_project formulas ("simulate".toList)

/-- `generate_properties` (script.py lines 62-67): the (file name, file
text) pairs written, in index order; each file holds the property followed
by a newline. -/

def generate_properties_files (properties : List (List Char))
    (prefx : List Char) : List (List Char × List Char) :=
  properties.enum.map
    (fun p => (prefx ++ '_' :: (fmtIndex p.1 ++ ".txt".toList), p.2 ++ ['\n']))

/-- The claim's wording of the normalization: each newline AND each tab
collapsed to a single space. -/

def claimNormalize (item : List Char) : List Char :=
  item.map (fun c => if c = '\n' ∨ c = '\t' then ' ' else c)

/-- The amended wording: each newline becomes a single space, each tab is
removed, all other characters kept. -/

def amendedNormalize (item : List Char) : List Char :=
  item.flatMap (fun c => if c = '\n' then [' '] else if c = '\t' then [] else [c])

/-! ## Template instantiation (script.py lines 118-155, 34-39) -/

def sysOpenTag : List Char := "<system>".toList

def sysCloseTag : List Char := "</system>".toList

/-- The fixed `static` wiring block of `generate_project`. -/

def staticBlock : List Char :=
  ("\nconst SlotId POS_IN_SENSORS_IN_ORDER[STATIONS] = \x7bPOS_IN_SENSORS[0], POS_IN_SENSORS[1], POS_IN_SENSORS[3], POS_IN_SENSORS[2], POS_IN_SENSORS[4], POS_IN_SENSORS[5]\x7d;\nconst OutSensorId OUT_SENSORS_ID_IN_ORDER[STATIONS] = \x7b1, 2, 4, 3, 4, 0\x7d;\nconst StationId IN_SENSORS_STATION[IN_SENSORS] = \x7b0, 1, 3, 2, 4, 5\x7d;\n\ninitializer = Initializer(DISKS);\nmotor = Motor(SPEED);\nconveyorBelt = ConveyorBelt();\nstation(const StationId id) = Station(id, POS_STATIONS[id], STATIONS_ELABORATION_TIME[id], POS_IN_SENSORS_IN_ORDER[id], OUT_SENSORS_ID_IN_ORDER[id]);\ninSensor(const InSensorId id) = InSensor(id, IN_SENSORS_STATION[id]);\noutSensor(const OutSensorId id) = OutSensor(id, POS_OUT_SENSORS[id]);\n").toList

/-- The strings `generate_project` appends in place of the marked region. -/

def replacementBlock (values : Variant) : List (List Char) :=
  ["    <system>\n".toList,
   "const int SPEED = ".toList ++ (intStr values.speed ++ ";\n".toList),
   "const int[1, 12] DISKS = ".toList ++ (intStr values.disks ++ ";\n".toList),
   "const SlotId POS_OUT_SENSORS[OUT_SENSORS] = ".toList ++
     (to_array values.out_sensors false ++ ";\n".toList),
   "const int STATIONS_ELABORATION_TIME[STATIONS] = ".toList ++
     (to_array values.stations_processing false ++ ";\n".toList),
   staticBlock,
   (if values.policy = 0 then
      "flowController = FlowController_0(POS_OUT_SENSORS[2], POS_OUT_SENSORS[3]);\n".toList
    else
      "flowController = FlowController_".toList ++
        (intStr values.policy ++ "();\n".toList)),
   "system initializer, motor, conveyorBelt, station, inSensor, outSensor, flowController;\n".toList,
   "    </system>\n".toList]

/-- The line loop of `generate_project` with its two state flags. -/

def gpLoop (values : Variant) :
    List (List Char) → Bool → Bool → List (List Char)
  | [], _, _ => []
  | line :: rest, sysFlag, done =>
    if !sysFlag && !containsSub line sysOpenTag then
      (line ++ ['\n']) :: gpLoop values rest sysFlag done
    else if containsSub line sysCloseTag then
      gpLoop values rest false done
    else if !done then
      replacementBlock values ++ gpLoop values rest true true
    else
      gpLoop values rest sysFlag done

/-- `generate_project` (script.py lines 118-155): the text written to the
variant file (template lines are the `get_project` output, i.e. each
original line with its trailing newline stripped). -/

def generate_project (project : List (List Char)) (values : Variant) :
    List Char :=
  (gpLoop values project false false).flatMap id

/-- Concatenation of lines with restored newlines. -/

def joinLines (ls : List (List Char)) : List Char :=
  ls.flatMap (fun l => l ++ ['\n'])

/-- The replacement text as one string. -/

def blockText (values : Variant) : List Char :=
  (replacementBlock values).flatMap id

/-! ## Concrete inputs used by witnesses and counterexamples -/

/-- A configuration holding only the scenario `base`. -/

def cfgW : Config :=
  ⟨none, [("base".toList, ⟨1, 1, 0, [0], [1]⟩)]⟩

/-- A small extensive configuration: 2 speeds, 1 disk count, 2 policies,
2 choices for the first sensor component, 2 station timings. -/

def extCfgW : ExtensiveConfig :=
  ⟨⟨1, 2⟩, ⟨0, 0⟩, ⟨0, 1⟩, ⟨[0, 1], [1, 1]⟩, ⟨[2], [3]⟩⟩

/-- A variant assignment used in witnesses. -/

def variantW : Variant := ⟨1, -2, 0, [3, 4], [5]⟩

/-- A simulation stdout block with one formula and a two-point trace. -/

def simStdoutW : List Char :=
  ("Verifying formula\r\nh\r\nF\r\n(1.0,2) (3.5,4)\r\nx").toList

/-- Two simulation results arriving in one order... -/

def simResultsA : List ((List Char × List Char) × (List Char × List Char)) :=
  [(("pA".toList, "00".toList), (simStdoutW, "0.10 seconds".toList)),
   (("pB".toList, "00".toList), (simStdoutW, "0.10 seconds".toList))]

/-- ...and in the other order. -/

def simResultsB : List ((List Char × List Char) × (List Char × List Char)) :=
  simResultsA.reverse

def simFormulasW : List (List Char) := [("simulate 1 [<=300] \x7bc\x7d").toList]

/-- A probability job whose stdout lacks the success marker. -/

def probResultsW : List ((List Char × List Char) × (List Char × List Char)) :=
  [(("p1".toList, "00".toList),
    ("Formula is NOT satisfied.".toList, "0.10 seconds".toList))]

def probFormulasW : List (List Char) := [("Pr[<=300](<> done)").toList]

/-- The claim C8 sample stdout. -/

def probStdoutW : List Char :=
  ("Formula is satisfied" ++ "\r\n" ++ "[0.10,0.20] (95% CI)" ++ "\r\n" ++
    "Values in [0,10] mean=5 steps=1: 1 2 3" ++ "\r\n").toList

/-- A query result whose stdout is nonempty but lacks the success marker. -/

def queryResultsW : List ((List Char × List Char) × (List Char × List Char)) :=
  [(("p1".toList, "00".toList),
    ("Formula is NOT satisfied.".toList, "0.10 seconds".toList))]

def queryFormulasW : List (List Char) := [("A[] not deadlock").toList]

/-- Template lines for the instantiation witness. -/

def tmplPre : List (List Char) := [("<nta>").toList, ("  <declaration>x</declaration>").toList]

def tmplLineO : List Char := ("    <system>").toList

def tmplMid : List (List Char) := [("const int SPEED = 9;").toList]

def tmplLineC : List Char := ("    </system>").toList

def tmplSuf : List (List Char) := [("</nta>").toList]

/-! ## Proofs -/

theorem natDigitsAux_congr (f1 : Nat) :
    ∀ f2 n, n < f1 → n < f2 → natDigitsAux f1 n = natDigitsAux f2 n := by
  induction f1 with
  | zero => intro f2 n h; omega
  | succ f ih =>
    intro f2 n h1 h2
    match f2, h2 with
    | f2 + 1, _ =>
      show (if n < 10 then [digitChar n]
          else natDigitsAux f (n / 10) ++ [digitChar (n % 10)]) =
        (if n < 10 then [digitChar n]
          else natDigitsAux f2 (n / 10) ++ [digitChar (n % 10)])
      by_cases h : n < 10
      · rw [if_pos h, if_pos h]
      · rw [if_neg h, if_neg h]
        congr 1
        have hd : n / 10 < n := Nat.div_lt_self (by omega) (by omega)
        exact ih f2 (n / 10) (by omega) (by omega)

/-- The usual unfolding equation of decimal rendering. -/
theorem natDigits_eq (n : Nat) :
    natDigits n = if n < 10 then [digitChar n]
      else natDigits (n / 10) ++ [digitChar (n % 10)] := by
  show (if n < 10 then [digitChar n]
      else natDigitsAux n (n / 10) ++ [digitChar (n % 10)]) = _
  by_cases h : n < 10
  · rw [if_pos h, if_pos h]
  · rw [if_neg h, if_neg h]
    congr 1
    have hd : n / 10 < n := Nat.div_lt_self (by omega) (by omega)
    exact natDigitsAux_congr n (n / 10 + 1) (n / 10) (by omega) (by omega)

theorem charVal_digitChar {n : Nat} (h : n < 10) : charVal (digitChar n) = n := by
  interval_cases n <;> rfl

theorem isDigitChar_digitChar {n : Nat} (h : n < 10) : isDigitChar (digitChar n) = true := by
  interval_cases n <;> rfl

theorem natDigits_ne_nil (n : Nat) : natDigits n ≠ [] := by
  rw [natDigits_eq]
  split
  · simp
  · simp

theorem natDigits_digits (n : Nat) : ∀ c ∈ natDigits n, isDigitChar c = true := by
  induction n using Nat.strong_induction_on with
  | _ n ih =>
    rw [natDigits_eq]
    split
    · next h => intro c hc; simp at hc; subst hc; exact isDigitChar_digitChar h
    · next h =>
      intro c hc
      simp only [List.mem_append, List.mem_singleton] at hc
      rcases hc with hc | hc
      · exact ih (n / 10) (Nat.div_lt_self (by omega) (by omega)) c hc
      · subst hc; exact isDigitChar_digitChar (Nat.mod_lt _ (by omega))

theorem digitsVal_append (a : Nat) (l₁ l₂ : List Char) :
    digitsVal a (l₁ ++ l₂) = digitsVal (digitsVal a l₁) l₂ := by
  simp [digitsVal, List.foldl_append]

theorem digitsVal_natDigits (n : Nat) :
    ∀ a, digitsVal a (natDigits n) = a * 10 ^ (natDigits n).length + n := by
  induction n using Nat.strong_induction_on with
  | _ n ih =>
    intro a
    rw [natDigits_eq]
    split
    · next h =>
      simp [digitsVal, charVal_digitChar h]
      ring
    · next h =>
      rw [digitsVal_append]
      have hlt : n / 10 < n := Nat.div_lt_self (by omega) (by omega)
      rw [ih (n / 10) hlt a]
      simp only [digitsVal, List.foldl_cons, List.foldl_nil,
        charVal_digitChar (Nat.mod_lt n (show 0 < 10 by omega)),
        List.length_append, List.length_singleton, pow_succ]
      have := Nat.div_add_mod n 10
      ring_nf
      omega

theorem digitsVal_natDigits_zero (n : Nat) : digitsVal 0 (natDigits n) = n := by
  rw [digitsVal_natDigits]; omega

/-- The leading digit of the decimal rendering of a positive number is not
`'0'` (no leading zeroes). -/
theorem natDigits_head_ne_zero (n : Nat) (hn : 0 < n) :
    ∀ c, (natDigits n).head? = some c → c ≠ '0' := by
  induction n using Nat.strong_induction_on with
  | _ n ih =>
    intro c hc
    rw [natDigits_eq] at hc
    split at hc
    · next h =>
      simp at hc
      subst hc
      intro habs
      have : n = 0 := by
        by_contra hne
        interval_cases n <;> simp_all [digitChar]
      omega
    · next h =>
      have hne := natDigits_ne_nil (n / 10)
      rw [List.head?_append_of_ne_nil _ hne] at hc
      exact ih (n / 10) (Nat.div_lt_self (by omega) (by omega))
        (Nat.div_pos (by omega) (by omega)) c hc

theorem parseNatAux_digits (ds rest : List Char) (a : Nat)
    (hd : ∀ c ∈ ds, isDigitChar c = true) (hr : noDigitHead rest) :
    parseNatAux (ds ++ rest) a = (digitsVal a ds, rest) := by
  induction ds generalizing a with
  | nil =>
    simp only [List.nil_append, digitsVal, List.foldl_nil]
    cases rest with
    | nil => rfl
    | cons c cs =>
      have := hr c rfl
      simp [parseNatAux, this]
  | cons c cs ihl =>
    have hc := hd c (by simp)
    simp only [List.cons_append, parseNatAux, hc, if_true, List.append_eq]
    rw [ihl (10 * a + charVal c) (fun x hx => hd x (List.mem_cons_of_mem _ hx))]
    simp [digitsVal]

theorem minus_not_digit : isDigitChar '-' = false := by decide

theorem natDigits_head_digit (n : Nat) :
    ∃ c cs, natDigits n = c :: cs ∧ isDigitChar c = true := by
  cases h : natDigits n with
  | nil => exact absurd h (natDigits_ne_nil n)
  | cons c cs =>
    refine ⟨c, cs, rfl, ?_⟩
    exact natDigits_digits n c (by rw [h]; simp)

theorem parseInt_intStr (n : Int) (rest : List Char) (hr : noDigitHead rest) :
    parseInt (intStr n ++ rest) = some (n, rest) := by
  have hrunNeg : parseNatAux (natDigits (-n).toNat ++ rest) 0 = ((-n).toNat, rest) := by
    rw [parseNatAux_digits _ _ _ (natDigits_digits _) hr, digitsVal_natDigits_zero]
  have hrunPos : parseNatAux (natDigits n.toNat ++ rest) 0 = (n.toNat, rest) := by
    rw [parseNatAux_digits _ _ _ (natDigits_digits _) hr, digitsVal_natDigits_zero]
  unfold intStr
  split
  · next hneg =>
    obtain ⟨c, cs, hds, hdig⟩ := natDigits_head_digit (-n).toNat
    simp only [List.cons_append, parseInt, if_pos rfl]
    rw [hds]
    simp only [List.cons_append]
    rw [if_pos hdig]
    rw [show (c :: (cs ++ rest)) = (c :: cs) ++ rest from rfl, ← hds, hrunNeg]
    have : ((-n).toNat : Int) = -n := Int.toNat_of_nonneg (by omega)
    simp [this]
  · next hpos =>
    obtain ⟨c, cs, hds, hdig⟩ := natDigits_head_digit n.toNat
    have hcm : c ≠ '-' := by
      intro habs; rw [habs] at hdig; exact absurd hdig (by decide)
    rw [hds]
    simp only [List.cons_append, parseInt]
    rw [if_neg hcm, if_pos hdig]
    rw [show (c :: (cs ++ rest)) = (c :: cs) ++ rest from rfl, ← hds, hrunPos]
    have : (n.toNat : Int) = n := Int.toNat_of_nonneg (by omega)
    simp [this]

theorem expectChars_append (p rest : List Char) :
    expectChars p (p ++ rest) = some rest := by
  induction p with
  | nil => rfl
  | cons c cs ih => simp [expectChars, ih]

theorem intStr_ne_nil (n : Int) : intStr n ≠ [] := by
  unfold intStr
  split
  · simp
  · exact natDigits_ne_nil _

theorem intStr_length_pos (n : Int) : 1 ≤ (intStr n).length := by
  cases h : intStr n with
  | nil => exact absurd h (intStr_ne_nil n)
  | cons a as => simp

theorem joinSep_length_ge (sep : List Char) (l : List Int) :
    l.length ≤ (joinSep sep l).length := by
  induction l with
  | nil => simp [joinSep]
  | cons v vs ih =>
    cases vs with
    | nil =>
      have := intStr_length_pos v
      show [v].length ≤ (intStr v).length
      simpa using this
    | cons w ws =>
      have h1 := intStr_length_pos v
      show (v :: w :: ws).length ≤ (intStr v ++ sep ++ joinSep sep (w :: ws)).length
      simp only [List.length_append, List.length_cons] at *
      omega

theorem intStr_head_digit_or_minus (n : Int) :
    ∀ c, (intStr n).head? = some c → (isDigitChar c = true ∨ c = '-') := by
  intro c hc
  unfold intStr at hc
  split at hc
  · simp only [List.head?] at hc
    injection hc with h
    right; exact h.symm
  · obtain ⟨c', cs', hds, hdig⟩ := natDigits_head_digit n.toNat
    rw [hds] at hc
    simp only [List.head?] at hc
    injection hc with h
    left; rw [h] at hdig; exact hdig

theorem parseListAux_join (v : Int) (vs : List Int) (rest : List Char) :
    ∀ fuel, vs.length + 1 ≤ fuel →
      parseListAux fuel (joinSep [','] (v :: vs) ++ (']' :: rest)) =
        some (v :: vs, rest) := by
  induction vs generalizing v with
  | nil =>
    intro fuel hfuel
    match fuel, hfuel with
    | f + 1, _ =>
      simp only [joinSep, parseListAux]
      rw [parseInt_intStr v (']' :: rest) (by intro c hc; simp at hc; subst hc; rfl)]
      simp
  | cons w ws ih =>
    intro fuel hfuel
    match fuel, hfuel with
    | f + 1, hf =>
      simp only [joinSep, parseListAux]
      have hjoin : joinSep [','] (w :: ws) ≠ [] := by
        cases ws with
        | nil => simpa [joinSep] using intStr_ne_nil w
        | cons x xs =>
          simp only [joinSep]
          intro habs
          exact absurd (List.append_eq_nil.mp
            (List.append_eq_nil.mp habs).1).1 (intStr_ne_nil w)
      rw [show intStr v ++ [','] ++ joinSep [','] (w :: ws) ++ (']' :: rest) =
        intStr v ++ (',' :: (joinSep [','] (w :: ws) ++ (']' :: rest))) by
          simp [List.append_assoc]]
      rw [parseInt_intStr v _ (by intro c hc; simp at hc; subst hc; rfl)]
      simp only [if_pos rfl]
      rw [ih w f (by simp only [List.length_cons] at hf; omega)]
      rfl

theorem parseArray_to_array (vs : List Int) (rest : List Char) :
    parseArray (to_array vs true ++ rest) = some (vs, rest) := by
  cases vs with
  | nil => rfl
  | cons v vs' =>
    simp only [to_array, Bool.not_true, if_neg (by simp : ¬((false : Bool) = true))]
    simp only [List.cons_append, parseArray, if_pos rfl]
    have hbody : (joinSep [','] (v :: vs') ++ [']']) ++ rest =
        joinSep [','] (v :: vs') ++ (']' :: rest) := by
      simp [List.append_assoc]
    rw [hbody]
    obtain ⟨c0, cs0, hds⟩ : ∃ c0 cs0, joinSep [','] (v :: vs') = c0 :: cs0 := by
      cases h : joinSep [','] (v :: vs') with
      | nil =>
        exfalso
        have := joinSep_length_ge [','] (v :: vs')
        rw [h] at this
        simp at this
      | cons a as => exact ⟨a, as, rfl⟩
    have hc0 : isDigitChar c0 = true ∨ c0 = '-' := by
      have : (joinSep [','] (v :: vs')).head? = some c0 := by rw [hds]; rfl
      cases vs' with
      | nil =>
        apply intStr_head_digit_or_minus v
        simpa [joinSep] using this
      | cons w ws =>
        apply intStr_head_digit_or_minus v
        obtain ⟨c1, cs1, hds1⟩ : ∃ c1 cs1, intStr v = c1 :: cs1 := by
          cases h : intStr v with
          | nil => exact absurd h (intStr_ne_nil v)
          | cons a as => exact ⟨a, as, rfl⟩
        simp only [joinSep, hds1, List.cons_append, List.head?] at this ⊢
        exact this
    have hne : c0 ≠ ']' := by
      rcases hc0 with h | h
      · intro habs; rw [habs] at h; exact absurd h (by decide)
      · intro habs; rw [habs] at h; exact absurd h (by decide)
    rw [hds]
    simp only [List.cons_append, if_neg hne]
    have hlen : vs'.length + 1 ≤ (c0 :: (cs0 ++ (']' :: rest))).length := by
      have h1 := joinSep_length_ge [','] (v :: vs')
      rw [hds] at h1
      simp only [List.length_cons, List.length_append] at h1 ⊢
      omega
    rw [show (c0 :: (cs0 ++ (']' :: rest))) = (c0 :: cs0) ++ (']' :: rest) from rfl, ← hds]
    exact parseListAux_join v vs' rest _ (by
      rw [hds] at *
      simpa using hlen)

theorem noDigitHead_minus (l : List Char) : noDigitHead ('-' :: l) := by
  intro c hc; simp at hc; subst hc; rfl

theorem parseInt_intStr_minus (n : Int) (l : List Char) :
    parseInt (intStr n ++ ('-' :: l)) = some (n, '-' :: l) :=
  parseInt_intStr n _ (noDigitHead_minus l)

theorem expectChars_s (l : List Char) : expectChars ['s'] ('s' :: l) = some l := by
  simp [expectChars]

theorem expectChars_d (l : List Char) :
    expectChars ['-', 'd'] ('-' :: 'd' :: l) = some l := by
  simp [expectChars]

theorem expectChars_p (l : List Char) :
    expectChars ['-', 'p'] ('-' :: 'p' :: l) = some l := by
  simp [expectChars]

theorem expectChars_os (l : List Char) :
    expectChars ['-', 'o', 's'] ('-' :: 'o' :: 's' :: l) = some l := by
  simp [expectChars]

theorem expectChars_sp (l : List Char) :
    expectChars ['-', 's', 'p'] ('-' :: 's' :: 'p' :: l) = some l := by
  simp [expectChars]

/-- Round trip: decoding a generated variant name recovers the assignment. -/
theorem parse_name_gen_name (v : Variant) (p : List Char) :
    parse_name (gen_name v p) = some v := by
  simp only [parse_name, gen_name, expectChars_s, expectChars_d, expectChars_p,
    expectChars_os, expectChars_sp, parseInt_intStr_minus, parseArray_to_array,
    Option.bind_eq_bind, Option.some_bind]

theorem intRange_length (lo hi : Int) :
    (intRange lo hi).length = (hi + 1 - lo).toNat := by
  unfold intRange
  rw [List.length_map, List.length_range]

theorem intRange_nodup (lo hi : Int) : (intRange lo hi).Nodup := by
  unfold intRange
  apply List.Nodup.map
  · intro i j hij
    have h : lo + (i : Int) = lo + (j : Int) := hij
    omega
  · exact List.nodup_range _

theorem length_flatMap_const {α β : Type} (l : List α) (f : α → List β) (k : Nat)
    (h : ∀ a, (f a).length = k) : (l.flatMap f).length = l.length * k := by
  induction l with
  | nil => simp
  | cons a as ih =>
    simp only [List.flatMap_cons, List.length_append, h a, ih, List.length_cons]
    ring

theorem listProd_length (ls : List (List Int)) :
    (listProd ls).length = (ls.map List.length).prod := by
  induction ls with
  | nil => rfl
  | cons l ls ih =>
    simp only [listProd, List.map_cons, List.prod_cons]
    rw [length_flatMap_const _ _ (listProd ls).length (fun a => by simp)]
    rw [ih]

theorem nodup_flatMap_key {α β : Type} (l : List α) (f : α → List β) (key : β → α)
    (hl : l.Nodup) (hf : ∀ a ∈ l, (f a).Nodup)
    (hkey : ∀ a ∈ l, ∀ b ∈ f a, key b = a) :
    (l.flatMap f).Nodup := by
  induction l with
  | nil => simp
  | cons a as ih =>
    simp only [List.flatMap_cons]
    rw [List.nodup_append]
    refine ⟨hf a (by simp), ?_, ?_⟩
    · exact ih (List.Nodup.of_cons hl) (fun x hx => hf x (by simp [hx]))
        (fun x hx => hkey x (by simp [hx]))
    · intro x hxa hxas
      obtain ⟨b, hb, hxb⟩ := List.mem_flatMap.mp hxas
      have h1 : key x = a := hkey a (by simp) x hxa
      have h2 : key x = b := hkey b (by simp [hb]) x hxb
      have : a ∉ as := (List.nodup_cons.mp hl).1
      exact this (h1 ▸ h2 ▸ hb)

theorem listProd_nodup (ls : List (List Int)) (h : ∀ l ∈ ls, l.Nodup) :
    (listProd ls).Nodup := by
  induction ls with
  | nil => simp [listProd]
  | cons l ls ih =>
    apply nodup_flatMap_key _ _ List.headI (h l (by simp))
    · intro a _
      exact List.Nodup.map (fun x y hxy => by injection hxy)
        (ih (fun x hx => h x (by simp [hx])))
    · intro a _ b hb
      obtain ⟨ys, _, hys⟩ := List.mem_map.mp hb
      rw [← hys]
      rfl

theorem get_space_nodup (mn mx : List Int) : (get_space mn mx).Nodup := by
  apply listProd_nodup
  intro l hl
  obtain ⟨p, _, hp⟩ := List.mem_map.mp hl
  rw [← hp]
  exact intRange_nodup _ _

/-- Enumerating the extensive sweep yields pairwise distinct assignments. -/
theorem generate_extensive_project_nodup (c : ExtensiveConfig) :
    (generate_extensive_project c).Nodup := by
  unfold generate_extensive_project
  apply nodup_flatMap_key _ _ Variant.speed (intRange_nodup _ _)
  · intro s _
    apply nodup_flatMap_key _ _ Variant.disks (intRange_nodup _ _)
    · intro d _
      apply nodup_flatMap_key _ _ Variant.policy (intRange_nodup _ _)
      · intro p _
        apply nodup_flatMap_key _ _ Variant.out_sensors (get_space_nodup _ _)
        · intro os _
          exact List.Nodup.map
            (fun x y hxy => congrArg Variant.stations_processing hxy)
            (get_space_nodup _ _)
        · intro os _ v hv
          obtain ⟨st, _, hst⟩ := List.mem_map.mp hv
          rw [← hst]
      · intro p _ v hv
        obtain ⟨os, _, hv⟩ := List.mem_flatMap.mp hv
        obtain ⟨st, _, hst⟩ := List.mem_map.mp hv
        rw [← hst]
    · intro d _ v hv
      obtain ⟨p, _, hv⟩ := List.mem_flatMap.mp hv
      obtain ⟨os, _, hv⟩ := List.mem_flatMap.mp hv
      obtain ⟨st, _, hst⟩ := List.mem_map.mp hv
      rw [← hst]
  · intro s _ v hv
    obtain ⟨d, _, hv⟩ := List.mem_flatMap.mp hv
    obtain ⟨p, _, hv⟩ := List.mem_flatMap.mp hv
    obtain ⟨os, _, hv⟩ := List.mem_flatMap.mp hv
    obtain ⟨st, _, hst⟩ := List.mem_map.mp hv
    rw [← hst]

theorem generate_extensive_project_length (c : ExtensiveConfig) :
    (generate_extensive_project c).length =
      (intRange c.speed.min c.speed.max).length *
        ((intRange c.disks.min c.disks.max).length *
          ((intRange c.policy.min c.policy.max).length *
            ((get_space c.out_sensors.min c.out_sensors.max).length *
              (get_space c.stations_processing.min
                c.stations_processing.max).length))) := by
  unfold generate_extensive_project
  apply length_flatMap_const
  intro s
  apply length_flatMap_const
  intro d
  apply length_flatMap_const
  intro p
  apply length_flatMap_const
  intro os
  simp

theorem zip_map_flip (mx mn : List Int) :
    (mx.zip mn).map (fun p => p.1 + 1 - p.2) =
      (mn.zip mx).map (fun p => p.2 + 1 - p.1) := by
  induction mx generalizing mn with
  | nil => cases mn <;> rfl
  | cons a as ih =>
    cases mn with
    | nil => rfl
    | cons b bs => simp [ih]

theorem prod_toNat_cast (l : List (Int × Int)) (h : ∀ p ∈ l, p.1 ≤ p.2) :
    (Nat.cast ((l.map (fun p => (p.2 + 1 - p.1).toNat)).prod) : Int) =
      (l.map (fun p => p.2 + 1 - p.1)).prod := by
  induction l with
  | nil => simp
  | cons p ps ih =>
    simp only [List.map_cons, List.prod_cons, Nat.cast_mul]
    rw [ih (fun q hq => h q (by simp [hq]))]
    rw [Int.toNat_of_nonneg (by have := h p (by simp); omega)]

theorem get_space_length_eq (mn mx : List Int) (h : ∀ p ∈ mn.zip mx, p.1 ≤ p.2) :
    ((get_space mn mx).length : Int) = get_space_length mx mn := by
  unfold get_space get_space_length
  rw [listProd_length, List.map_map]
  rw [zip_map_flip]
  have : (List.length ∘ fun p : Int × Int => intRange p.1 p.2) =
      fun p : Int × Int => (p.2 + 1 - p.1).toNat := by
    funext p
    simp [intRange_length]
  rw [this]
  exact prod_toNat_cast _ h

theorem get_extensive_length_eq_componentCount (c : ExtensiveConfig) :
    get_extensive_length c = componentCount c := by
  unfold get_extensive_length componentCount componentRanges get_space_length
  rw [List.map_append, List.map_append, List.prod_append, List.prod_append]
  rw [← zip_map_flip c.out_sensors.max c.out_sensors.min,
    ← zip_map_flip c.stations_processing.max c.stations_processing.min]
  simp only [List.map_cons, List.map_nil, List.prod_cons, List.prod_nil, mul_one]
  ring

theorem generate_extensive_project_count (c : ExtensiveConfig)
    (hb : ∀ p ∈ componentRanges c, p.1 ≤ p.2) :
    (Nat.cast (generate_extensive_project c).length : Int) =
      get_extensive_length c := by
  have hs : c.speed.min ≤ c.speed.max :=
    hb (c.speed.min, c.speed.max) (by simp [componentRanges])
  have hd : c.disks.min ≤ c.disks.max :=
    hb (c.disks.min, c.disks.max) (by simp [componentRanges])
  have hp : c.policy.min ≤ c.policy.max :=
    hb (c.policy.min, c.policy.max) (by simp [componentRanges])
  have hos : ∀ p ∈ c.out_sensors.min.zip c.out_sensors.max, p.1 ≤ p.2 := by
    intro p hmem
    exact hb p (by simp [componentRanges, hmem])
  have hsp : ∀ p ∈ c.stations_processing.min.zip c.stations_processing.max,
      p.1 ≤ p.2 := by
    intro p hmem
    exact hb p (by simp [componentRanges, hmem])
  rw [generate_extensive_project_length]
  push_cast
  rw [intRange_length, intRange_length, intRange_length]
  rw [Int.toNat_of_nonneg (by omega), Int.toNat_of_nonneg (by omega),
    Int.toNat_of_nonneg (by omega)]
  rw [get_space_length_eq _ _ hos, get_space_length_eq _ _ hsp]
  unfold get_extensive_length
  ring

theorem listLe_total (x y : List Char) : listLe x y || listLe y x := by
  induction x generalizing y with
  | nil => simp [listLe]
  | cons a as ih =>
    cases y with
    | nil => simp [listLe]
    | cons b bs =>
      by_cases hab : a = b
      · subst hab
        simp only [listLe, if_pos rfl]
        exact ih bs
      · have hba : b ≠ a := fun h => hab h.symm
        simp only [listLe, if_neg hab, if_neg hba]
        rcases lt_trichotomy a b with h | h | h
        · simp [h]
        · exact absurd h hab
        · simp [h]

theorem listLe_trans (x y z : List Char) :
    listLe x y → listLe y z → listLe x z := by
  induction x generalizing y z with
  | nil => intro _ _; simp [listLe]
  | cons a as ih =>
    cases y with
    | nil => intro h; exact absurd h (by simp [listLe])
    | cons b bs =>
      cases z with
      | nil => intro _ h; exact absurd h (by simp [listLe])
      | cons c cs =>
        intro h1 h2
        by_cases hab : a = b <;> by_cases hbc : b = c
        · subst hab; subst hbc
          simp only [listLe, if_pos rfl] at h1 h2 ⊢
          exact ih bs cs h1 h2
        · subst hab
          simp only [listLe, if_pos rfl, if_neg hbc] at h1 h2 ⊢
          exact h2
        · subst hbc
          simp only [listLe, if_neg hab, if_pos rfl] at h1 h2 ⊢
          exact h1
        · simp only [listLe, if_neg hab, if_neg hbc] at h1 h2

          have hac : a < c := lt_trans (of_decide_eq_true h1) (of_decide_eq_true h2)
          have hane : a ≠ c := ne_of_lt hac
          simp only [listLe, if_neg hane]
          simp [hac]

theorem listLe_antisymm (x y : List Char) :
    listLe x y → listLe y x → x = y := by
  induction x generalizing y with
  | nil =>
    cases y with
    | nil => intro _ _; rfl
    | cons b bs => intro _ h; exact absurd h (by simp [listLe])
  | cons a as ih =>
    cases y with
    | nil => intro h; exact absurd h (by simp [listLe])
    | cons b bs =>
      intro h1 h2
      by_cases hab : a = b
      · subst hab
        simp only [listLe, if_pos rfl] at h1 h2
        rw [ih bs h1 h2]
      · have hba : b ≠ a := fun h => hab h.symm
        simp only [listLe, if_neg hab, if_neg hba] at h1 h2
        have := lt_asymm (of_decide_eq_true h1)
        exact absurd (of_decide_eq_true h2) this

theorem keysInOrder_mem (x : List Char) (xs : List (List Char)) :
    x ∈ keysInOrder xs ↔ x ∈ xs := by
  induction xs with
  | nil => simp [keysInOrder]
  | cons k ks ih =>
    simp only [keysInOrder, List.mem_cons, List.mem_filter, decide_eq_true_eq, ih]
    constructor
    · rintro (h | ⟨h, _⟩)
      · exact Or.inl h
      · exact Or.inr h
    · rintro (h | h)
      · exact Or.inl h
      · by_cases hxk : x = k
        · exact Or.inl hxk
        · exact Or.inr ⟨h, hxk⟩

theorem keysInOrder_nodup (xs : List (List Char)) : (keysInOrder xs).Nodup := by
  induction xs with
  | nil => simp [keysInOrder]
  | cons k ks ih =>
    simp only [keysInOrder, List.nodup_cons]
    constructor
    · intro h
      exact absurd rfl (of_decide_eq_true (List.mem_filter.mp h).2)
    · exact List.Nodup.filter _ ih

theorem keysInOrder_append_singleton (xs : List (List Char)) (x : List Char) :
    keysInOrder (xs ++ [x]) =
      if x ∈ xs then keysInOrder xs else keysInOrder xs ++ [x] := by
  induction xs with
  | nil => simp [keysInOrder]
  | cons k ks ih =>
    rw [show (k :: ks) ++ [x] = k :: (ks ++ [x]) from rfl]
    rw [show keysInOrder (k :: (ks ++ [x])) =
      k :: (keysInOrder (ks ++ [x])).filter (fun y => decide (y ≠ k)) from rfl]
    rw [show keysInOrder (k :: ks) =
      k :: (keysInOrder ks).filter (fun y => decide (y ≠ k)) from rfl]
    rw [ih]
    by_cases hxk : x = k
    · subst hxk
      rw [if_pos (List.mem_cons_self x ks)]
      by_cases hxks : x ∈ ks
      · rw [if_pos hxks]
      · rw [if_neg hxks, List.filter_append]
        simp
    · have hmem : (x ∈ k :: ks) ↔ (x ∈ ks) := by simp [hxk]
      by_cases hxks : x ∈ ks
      · rw [if_pos hxks, if_pos (hmem.mpr hxks)]
      · rw [if_neg hxks, if_neg (fun h => hxks (hmem.mp h)), List.filter_append]
        simp [hxk]

theorem entriesOf_append_singleton {E : Type} (p : List Char)
    (rs : List ((List Char × List Char) × E)) (r : (List Char × List Char) × E) :
    entriesOf p (rs ++ [r]) =
      entriesOf p rs ++ (if r.1.1 = p then [(r.1.2, r.2)] else []) := by
  unfold entriesOf
  rw [List.filterMap_append]
  congr 1
  by_cases h : r.1.1 = p <;> simp [h]

theorem entriesOf_nil_of_not_mem {E : Type} (p : List Char)
    (rs : List ((List Char × List Char) × E))
    (h : p ∉ rs.map (fun r => r.1.1)) : entriesOf p rs = [] := by
  induction rs with
  | nil => rfl
  | cons r rs ih =>
    simp only [List.map_cons, List.mem_cons] at h
    push_neg at h
    show List.filterMap _ (r :: rs) = []
    rw [List.filterMap_cons]
    have hnone : (if r.1.1 = p then some (r.1.2, r.2) else none) = none :=
      if_neg (fun hh => h.1 hh.symm)
    rw [hnone]
    exact ih h.2

theorem entriesOf_mem_key {E : Type} (p : List Char)
    (rs : List ((List Char × List Char) × E)) (q : List Char) (e : E)
    (h : (q, e) ∈ entriesOf p rs) : ((p, q), e) ∈ rs := by
  unfold entriesOf at h
  obtain ⟨r, hr, hq⟩ := List.mem_filterMap.mp h
  by_cases hp : r.1.1 = p
  · rw [if_pos hp] at hq
    injection hq with h1
    injection h1 with h3 h4
    obtain ⟨⟨a, b⟩, c⟩ := r
    simp only at hp h3 h4
    subst hp; subst h3; subst h4
    exact hr
  · rw [if_neg hp] at hq
    exact absurd hq (by simp)

theorem nestedInsert_canonical {E : Type}
    (rs : List ((List Char × List Char) × E)) (r : (List Char × List Char) × E)
    (hnew : r.1 ∉ rs.map Prod.fst) :
    nestedInsert (canonicalGroup rs) r.1.1 r.1.2 r.2 = canonicalGroup (rs ++ [r]) := by
  have hkeys : (rs ++ [r]).map (fun x => x.1.1) =
      rs.map (fun x => x.1.1) ++ [r.1.1] := by simp
  by_cases hmem : r.1.1 ∈ rs.map (fun x => x.1.1)
  · have hany : (canonicalGroup rs).any (fun p => decide (p.1 = r.1.1)) = true := by
      rw [List.any_eq_true]
      exact ⟨(r.1.1, entriesOf r.1.1 rs),
        List.mem_map.mpr ⟨r.1.1, (keysInOrder_mem _ _).mpr hmem, rfl⟩, by simp⟩
    rw [show canonicalGroup (rs ++ [r]) =
        (keysInOrder (rs.map (fun x => x.1.1))).map
          (fun p => (p, entriesOf p (rs ++ [r]))) from by
      unfold canonicalGroup
      rw [hkeys, keysInOrder_append_singleton, if_pos hmem]]
    unfold nestedInsert
    rw [if_pos hany]
    unfold canonicalGroup
    rw [List.map_map]
    apply List.map_congr_left
    intro p hp
    show (if p = r.1.1 then (p, dictInsert (entriesOf p rs) r.1.2 r.2)
      else (p, entriesOf p rs)) = (p, entriesOf p (rs ++ [r]))
    by_cases hpr : p = r.1.1
    · rw [if_pos hpr]
      rw [entriesOf_append_singleton _ rs r, if_pos hpr.symm]
      unfold dictInsert
      have hkey : ¬(entriesOf p rs).any (fun q => decide (q.1 = r.1.2)) = true := by
        rw [List.any_eq_true]
        rintro ⟨⟨q, e⟩, hq, hq2⟩
        simp only [decide_eq_true_eq] at hq2
        subst hq2
        have h1 := entriesOf_mem_key p rs _ e hq
        have h2 : (p, r.1.2) ∈ rs.map Prod.fst := List.mem_map.mpr ⟨_, h1, rfl⟩
        have h3 : r.1 = (p, r.1.2) := by rw [hpr]
        exact hnew (h3 ▸ h2)
      rw [if_neg hkey]
    · rw [if_neg hpr]
      rw [entriesOf_append_singleton _ rs r, if_neg (fun h => hpr h.symm)]
      simp
  · have hany : ¬(canonicalGroup rs).any (fun p => decide (p.1 = r.1.1)) = true := by
      rw [List.any_eq_true]
      rintro ⟨x, hx, hx2⟩
      simp only [decide_eq_true_eq] at hx2
      obtain ⟨p, hp, hpx⟩ := List.mem_map.mp hx
      apply hmem
      have hpr : p = r.1.1 := by rw [← hpx] at hx2; exact hx2
      exact hpr ▸ (keysInOrder_mem _ _).mp hp
    unfold nestedInsert
    rw [if_neg hany]
    unfold canonicalGroup
    rw [hkeys, keysInOrder_append_singleton, if_neg hmem, List.map_append]
    congr 1
    · apply List.map_congr_left
      intro p hp
      rw [entriesOf_append_singleton _ rs r,
        if_neg (fun h : r.1.1 = p => hmem (h ▸ (keysInOrder_mem _ _).mp hp))]
      simp
    · simp only [List.map_cons, List.map_nil]
      rw [entriesOf_append_singleton _ rs r, if_pos rfl,
        entriesOf_nil_of_not_mem _ _ hmem]
      simp

theorem groupResults_eq_canonical {E : Type}
    (rs : List ((List Char × List Char) × E))
    (hnd : (rs.map Prod.fst).Nodup) :
    groupResults rs = canonicalGroup rs := by
  induction rs using List.reverseRecOn with
  | nil => rfl
  | append_singleton rs r ih =>
    have hnd' : (rs.map Prod.fst).Nodup := by
      rw [List.map_append] at hnd
      exact (List.nodup_append.mp hnd).1
    have hnew : r.1 ∉ rs.map Prod.fst := by
      rw [List.map_append] at hnd
      exact fun habs => (List.nodup_append.mp hnd).2.2 habs (by simp)
    unfold groupResults
    rw [List.foldl_append]
    rw [show rs.foldl (fun acc x => nestedInsert acc x.1.1 x.1.2 x.2) [] =
      groupResults rs from rfl, ih hnd']
    simp only [List.foldl_cons, List.foldl_nil]
    exact nestedInsert_canonical rs r hnew

theorem insertKey_perm {E : Type} (a : List Char × E)
    (l : List (List Char × E)) : (insertKey a l).Perm (a :: l) := by
  induction l with
  | nil => exact List.Perm.refl _
  | cons b bs ih =>
    unfold insertKey
    by_cases h : listLe a.1 b.1 = true
    · rw [if_pos h]
    · rw [if_neg h]
      exact (ih.cons b).trans (List.Perm.swap a b bs)

theorem sortByKey_perm {E : Type} (l : List (List Char × E)) :
    (sortByKey l).Perm l := by
  induction l with
  | nil => exact List.Perm.refl _
  | cons a as ih =>
    unfold sortByKey
    exact (insertKey_perm a (sortByKey as)).trans (ih.cons a)

theorem insertKey_sorted {E : Type} (a : List Char × E)
    (l : List (List Char × E))
    (h : l.Pairwise (fun x y => listLe x.1 y.1 = true)) :
    (insertKey a l).Pairwise (fun x y => listLe x.1 y.1 = true) := by
  induction l with
  | nil => simp [insertKey]
  | cons b bs ih =>
    rcases List.pairwise_cons.mp h with ⟨hb, hbs⟩
    unfold insertKey
    by_cases hab : listLe a.1 b.1 = true
    · rw [if_pos hab]
      apply List.pairwise_cons.mpr
      refine ⟨?_, h⟩
      intro x hx
      rcases List.mem_cons.mp hx with hx | hx
      · subst hx; exact hab
      · exact listLe_trans _ _ _ hab (hb x hx)
    · rw [if_neg hab]
      apply List.pairwise_cons.mpr
      have hba : listLe b.1 a.1 = true := by
        have ht := listLe_total a.1 b.1
        cases hh : listLe b.1 a.1
        · rw [hh] at ht
          cases hh2 : listLe a.1 b.1
          · rw [hh2] at ht
            exact absurd ht (by decide)
          · exact absurd hh2 hab
        · rfl
      refine ⟨?_, ih hbs⟩
      intro x hx
      rcases List.mem_cons.mp ((insertKey_perm a bs).mem_iff.mp hx) with hx1 | hx1
      · subst hx1; exact hba
      · exact hb x hx1

theorem sortByKey_sorted {E : Type} (l : List (List Char × E)) :
    (sortByKey l).Pairwise (fun a b => listLe a.1 b.1 = true) := by
  induction l with
  | nil => simp [sortByKey]
  | cons a as ih =>
    unfold sortByKey
    exact insertKey_sorted a (sortByKey as) ih

theorem sortByKey_eq_of_perm {E : Type} (l1 l2 : List (List Char × E))
    (hp : l1.Perm l2) (hnd : (l1.map Prod.fst).Nodup) :
    sortByKey l1 = sortByKey l2 := by
  have hperm : (sortByKey l1).Perm (sortByKey l2) :=
    (sortByKey_perm l1).trans (hp.trans (sortByKey_perm l2).symm)
  have hnd1 : ((sortByKey l1).map Prod.fst).Nodup :=
    (((sortByKey_perm l1).map Prod.fst).nodup_iff).mpr hnd
  have hnd2 : ((sortByKey l2).map Prod.fst).Nodup :=
    (((sortByKey_perm l2).map Prod.fst).nodup_iff).mpr
      (((hp.map Prod.fst).nodup_iff).mp hnd)
  have hs1 : (sortByKey l1).Pairwise
      (fun a b => listLe a.1 b.1 = true ∧ a.1 ≠ b.1) :=
    (sortByKey_sorted l1).and ((List.pairwise_map.mp hnd1))
  have hs2 : (sortByKey l2).Pairwise
      (fun a b => listLe a.1 b.1 = true ∧ a.1 ≠ b.1) :=
    (sortByKey_sorted l2).and ((List.pairwise_map.mp hnd2))
  haveI : IsAntisymm (List Char × E)
      (fun a b => listLe a.1 b.1 = true ∧ a.1 ≠ b.1) :=
    ⟨fun a b h1 h2 => absurd (listLe_antisymm _ _ h1.1 h2.1) h1.2⟩
  exact List.eq_of_perm_of_sorted hperm hs1 hs2

theorem entriesOf_cons {E : Type} (p : List Char)
    (r : (List Char × List Char) × E) (rs : List ((List Char × List Char) × E)) :
    entriesOf p (r :: rs) =
      if r.1.1 = p then (r.1.2, r.2) :: entriesOf p rs else entriesOf p rs := by
  unfold entriesOf
  rw [List.filterMap_cons]
  by_cases h : r.1.1 = p
  · simp [h]
  · simp [h]

theorem entriesOf_keys_nodup {E : Type} (p : List Char)
    (rs : List ((List Char × List Char) × E))
    (hnd : (rs.map Prod.fst).Nodup) :
    ((entriesOf p rs).map Prod.fst).Nodup := by
  induction rs with
  | nil => simp [entriesOf]
  | cons r rs ih =>
    simp only [List.map_cons, List.nodup_cons] at hnd
    rw [entriesOf_cons]
    by_cases h : r.1.1 = p
    · rw [if_pos h]
      simp only [List.map_cons, List.nodup_cons]
      refine ⟨?_, ih hnd.2⟩
      intro habs
      obtain ⟨⟨q, e⟩, hq, hq2⟩ := List.mem_map.mp habs
      simp only at hq2
      subst hq2
      have h1 := entriesOf_mem_key p rs _ e hq
      have h2 : (p, r.1.2) ∈ rs.map Prod.fst := List.mem_map.mpr ⟨_, h1, rfl⟩
      have h3 : r.1 = (p, r.1.2) := by rw [← h]
      exact hnd.1 (h3 ▸ h2)
    · rw [if_neg h]
      exact ih hnd.2

theorem sortReport_group_perm {E : Type}
    (rs1 rs2 : List ((List Char × List Char) × E))
    (hp : rs1.Perm rs2) (hnd : (rs1.map Prod.fst).Nodup) :
    sortReport (groupResults rs1) = sortReport (groupResults rs2) := by
  have hnd2 : (rs2.map Prod.fst).Nodup := ((hp.map Prod.fst).nodup_iff).mp hnd
  rw [groupResults_eq_canonical _ hnd, groupResults_eq_canonical _ hnd2]
  unfold sortReport canonicalGroup
  rw [List.map_map, List.map_map]
  simp only [Function.comp_def]
  have hinner : ∀ p, sortByKey (entriesOf p rs1) = sortByKey (entriesOf p rs2) := by
    intro p
    apply sortByKey_eq_of_perm
    · exact hp.filterMap _
    · exact entriesOf_keys_nodup p rs1 hnd
  rw [show (keysInOrder (rs2.map (fun r => r.1.1))).map
      (fun p => (p, sortByKey (entriesOf p rs2))) =
    (keysInOrder (rs2.map (fun r => r.1.1))).map
      (fun p => (p, sortByKey (entriesOf p rs1))) from
    List.map_congr_left (fun p _ => by rw [hinner p])]
  apply sortByKey_eq_of_perm
  · apply List.Perm.map
    rw [List.perm_ext_iff_of_nodup (keysInOrder_nodup _) (keysInOrder_nodup _)]
    intro a
    rw [keysInOrder_mem, keysInOrder_mem]
    exact (hp.map (fun r => r.1.1)).mem_iff
  · rw [List.map_map]
    have hfst : (Prod.fst ∘ fun p => (p, sortByKey (entriesOf p rs1))) = id := rfl
    rw [hfst, List.map_id]
    exact keysInOrder_nodup _

/-- Arrival-order independence of the shared report shape: permuting the
results dict (same key-value multiset, keys unique) leaves the two-level
sorted report unchanged. -/
theorem buildReport_perm {E : Type}
    (entry : List Char → List Char → List Char → E)
    (r1 r2 : List ((List Char × List Char) × (List Char × List Char)))
    (hp : r1.Perm r2) (hnd : (r1.map Prod.fst).Nodup) :
    buildReport entry r1 = buildReport entry r2 := by
  unfold buildReport
  apply sortReport_group_perm
  · exact hp.map _
  · rw [List.map_map]
    have hfst : (Prod.fst ∘ fun r : (List Char × List Char) × (List Char × List Char) =>
      (r.1, entry r.1.2 r.2.1 r.2.2)) = Prod.fst := rfl
    rw [hfst]
    exact hnd

theorem sortReport_sorted_outer {E : Type}
    (m : List (List Char × List (List Char × E))) :
    (sortReport m).Pairwise (fun a b => listLe a.1 b.1 = true) :=
  sortByKey_sorted _

theorem sortReport_sorted_inner {E : Type}
    (m : List (List Char × List (List Char × E))) :
    ∀ x ∈ sortReport m, x.2.Pairwise (fun a b => listLe a.1 b.1 = true) := by
  intro x hx
  have hmem : x ∈ m.map (fun p => (p.1, sortByKey p.2)) :=
    (sortByKey_perm _).mem_iff.mp hx
  obtain ⟨p, _, hpx⟩ := List.mem_map.mp hmem
  rw [← hpx]
  exact sortByKey_sorted _

theorem countEq_cons {α : Type} [DecidableEq α] (b : α) (l : List α) (a : α) :
    countEq (b :: l) a = countEq l a + if b = a then 1 else 0 := by
  unfold countEq
  rw [List.filter_cons]
  by_cases h : b = a
  · simp [h]
  · simp [h]

theorem countEq_eq_zero_of_not_mem {α : Type} [DecidableEq α] {l : List α}
    {a : α} (h : a ∉ l) : countEq l a = 0 := by
  induction l with
  | nil => rfl
  | cons b bs ih =>
    simp only [List.mem_cons] at h
    push_neg at h
    rw [countEq_cons, ih h.2, if_neg (fun hh => h.1 hh.symm)]

theorem countEq_eq_one_of_nodup_mem {α : Type} [DecidableEq α] {l : List α}
    {a : α} (hnd : l.Nodup) (hm : a ∈ l) : countEq l a = 1 := by
  induction l with
  | nil => exact absurd hm (by simp)
  | cons b bs ih =>
    simp only [List.nodup_cons] at hnd
    rw [countEq_cons]
    by_cases h : b = a
    · subst h
      rw [if_pos rfl, countEq_eq_zero_of_not_mem hnd.1]
    · rw [if_neg h]
      have hm' : a ∈ bs := by
        rcases List.mem_cons.mp hm with hh | hh
        · exact absurd hh.symm h
        · exact hh
      exact ih hnd.2 hm'

theorem countEq_perm {α : Type} [DecidableEq α] {l1 l2 : List α}
    (hp : l1.Perm l2) (a : α) : countEq l1 a = countEq l2 a :=
  (hp.filter _).length_eq

theorem count_entriesOf {E : Type} (p q : List Char)
    (rs : List ((List Char × List Char) × E)) :
    countEq ((entriesOf p rs).map Prod.fst) q =
      countEq (rs.map Prod.fst) (p, q) := by
  induction rs with
  | nil => simp [entriesOf, countEq]
  | cons r rs ih =>
    rw [entriesOf_cons]
    by_cases h : r.1.1 = p
    · rw [if_pos h]
      simp only [List.map_cons]
      rw [countEq_cons, countEq_cons, ih]
      congr 1
      by_cases hq : r.1.2 = q
      · rw [if_pos hq, if_pos (by rw [Prod.ext_iff]; exact ⟨h, hq⟩)]
      · rw [if_neg hq, if_neg (by rw [Prod.ext_iff]; exact fun hh => hq hh.2)]
    · rw [if_neg h]
      simp only [List.map_cons]
      rw [countEq_cons, ih,
        if_neg (by rw [Prod.ext_iff]; exact fun hh => h hh.1)]
      omega

theorem sum_if_single (ks : List (List Char)) (p : List Char)
    (C : List Char → Nat) (hnd : ks.Nodup) :
    (ks.map (fun k => if k = p then C k else 0)).sum =
      if p ∈ ks then C p else 0 := by
  induction ks with
  | nil => simp
  | cons k ks ih =>
    simp only [List.map_cons, List.sum_cons, List.nodup_cons] at *
    by_cases hk : k = p
    · subst hk
      rw [if_pos rfl, if_pos (by simp), ih hnd.2, if_neg hnd.1]
      omega
    · rw [if_neg hk, ih hnd.2]
      have hiff : (p ∈ k :: ks) ↔ p ∈ ks := by
        simp only [List.mem_cons]
        exact ⟨fun h => h.resolve_left (fun hh => hk hh.symm), Or.inr⟩
      by_cases hp : p ∈ ks
      · rw [if_pos hp, if_pos (hiff.mpr hp)]
        omega
      · rw [if_neg hp, if_neg (fun h => hp (hiff.mp h))]

theorem entryCount_sortReport {E : Type}
    (m : List (List Char × List (List Char × E))) (p q : List Char) :
    entryCount (sortReport m) p q = entryCount m p q := by
  unfold entryCount sortReport
  rw [((sortByKey_perm _).map _).sum_eq, List.map_map]
  apply congrArg List.sum
  apply List.map_congr_left
  intro pr _
  show (if pr.1 = p then countEq ((sortByKey pr.2).map Prod.fst) q else 0) = _
  by_cases h : pr.1 = p
  · rw [if_pos h, if_pos h, countEq_perm ((sortByKey_perm pr.2).map Prod.fst) q]
  · rw [if_neg h, if_neg h]

theorem entryCount_canonical {E : Type}
    (rs : List ((List Char × List Char) × E)) (p q : List Char) :
    entryCount (canonicalGroup rs) p q = countEq (rs.map Prod.fst) (p, q) := by
  unfold entryCount canonicalGroup
  rw [List.map_map]
  have hc : ((fun pr : List Char × List (List Char × E) =>
      if pr.1 = p then countEq (pr.2.map Prod.fst) q else 0) ∘
        (fun k => (k, entriesOf k rs))) =
      (fun k => if k = p then countEq ((entriesOf k rs).map Prod.fst) q else 0) := rfl
  rw [hc, sum_if_single _ _ _ (keysInOrder_nodup _)]
  by_cases hp : p ∈ keysInOrder (rs.map (fun r => r.1.1))
  · rw [if_pos hp, count_entriesOf]
  · rw [if_neg hp]
    have hnotmem : (p, q) ∉ rs.map Prod.fst := by
      intro habs
      apply hp
      rw [keysInOrder_mem]
      obtain ⟨r, hr, hrq⟩ := List.mem_map.mp habs
      exact List.mem_map.mpr ⟨r, hr, by rw [show r.1.1 = (r.1).1 from rfl, hrq]⟩
    rw [countEq_eq_zero_of_not_mem hnotmem]

theorem buildReport_entryCount {E : Type}
    (entry : List Char → List Char → List Char → E)
    (results : List ((List Char × List Char) × (List Char × List Char)))
    (p q : List Char) (hnd : (results.map Prod.fst).Nodup)
    (hmem : (p, q) ∈ results.map Prod.fst) :
    entryCount (buildReport entry results) p q = 1 := by
  unfold buildReport
  have hfst : ((results.map
      (fun r => (r.1, entry r.1.2 r.2.1 r.2.2))).map Prod.fst) =
      results.map Prod.fst := by
    rw [List.map_map]
    rfl
  rw [entryCount_sortReport,
    groupResults_eq_canonical _ (by rw [hfst]; exact hnd),
    entryCount_canonical, hfst]
  exact countEq_eq_one_of_nodup_mem hnd hmem

theorem buildReport_mem {E : Type}
    (entry : List Char → List Char → List Char → E)
    (results : List ((List Char × List Char) × (List Char × List Char)))
    (p q : List Char) (v : List Char × List Char)
    (hnd : (results.map Prod.fst).Nodup)
    (hmem : ((p, q), v) ∈ results) :
    ∃ inner, (p, inner) ∈ buildReport entry results ∧
      (q, entry q v.1 v.2) ∈ inner := by
  unfold buildReport
  have hfst : ((results.map
      (fun r => (r.1, entry r.1.2 r.2.1 r.2.2))).map Prod.fst) =
      results.map Prod.fst := by
    rw [List.map_map]
    rfl
  rw [groupResults_eq_canonical _ (by rw [hfst]; exact hnd)]
  refine ⟨sortByKey (entriesOf p
    (results.map (fun r => (r.1, entry r.1.2 r.2.1 r.2.2)))), ?_, ?_⟩
  · unfold sortReport
    apply (sortByKey_perm _).mem_iff.mpr
    apply List.mem_map.mpr
    refine ⟨(p, entriesOf p
      (results.map (fun r => (r.1, entry r.1.2 r.2.1 r.2.2)))), ?_, rfl⟩
    unfold canonicalGroup
    apply List.mem_map.mpr
    refine ⟨p, ?_, rfl⟩
    rw [keysInOrder_mem]
    exact List.mem_map.mpr ⟨((p, q), entry q v.1 v.2),
      List.mem_map.mpr ⟨((p, q), v), hmem, rfl⟩, rfl⟩
  · apply (sortByKey_perm _).mem_iff.mpr
    unfold entriesOf
    apply List.mem_filterMap.mpr
    refine ⟨((p, q), entry q v.1 v.2), ?_, ?_⟩
    · exact List.mem_map.mpr ⟨((p, q), v), hmem, rfl⟩
    · rw [if_pos rfl]

theorem gpLoop_copy (values : Variant) (pre rest : List (List Char)) (d : Bool)
    (h : ∀ l ∈ pre, containsSub l sysOpenTag = false) :
    gpLoop values (pre ++ rest) false d =
      pre.map (fun l => l ++ ['\n']) ++ gpLoop values rest false d := by
  induction pre with
  | nil => rfl
  | cons l pre ih =>
    have hl := h l (by simp)
    simp only [List.cons_append, gpLoop, hl, Bool.not_false, Bool.and_self,
      if_true, List.map_cons, List.append_eq]
    rw [ih (fun x hx => h x (by simp [hx]))]

theorem gpLoop_skip (values : Variant) (mid rest : List (List Char))
    (h : ∀ l ∈ mid, containsSub l sysCloseTag = false) :
    gpLoop values (mid ++ rest) true true = gpLoop values rest true true := by
  induction mid with
  | nil => rfl
  | cons l mid ih =>
    have hl := h l (by simp)
    simp only [List.cons_append, gpLoop, hl, Bool.not_true, Bool.false_and,
      Bool.not_false, Bool.false_eq_true, if_false, List.append_eq]
    rw [ih (fun x hx => h x (by simp [hx]))]

theorem gpLoop_frame (values : Variant) (pre mid suf : List (List Char))
    (lineO lineC : List Char)
    (hpre : ∀ l ∈ pre, containsSub l sysOpenTag = false)
    (hmid : ∀ l ∈ mid, containsSub l sysCloseTag = false)
    (hsuf : ∀ l ∈ suf, containsSub l sysOpenTag = false)
    (hO : containsSub lineO sysOpenTag = true)
    (hOc : containsSub lineO sysCloseTag = false)
    (hC : containsSub lineC sysCloseTag = true) :
    gpLoop values (pre ++ lineO :: (mid ++ lineC :: suf)) false false =
      pre.map (fun l => l ++ ['\n']) ++
        (replacementBlock values ++ suf.map (fun l => l ++ ['\n'])) := by
  rw [gpLoop_copy values pre _ false hpre]
  congr 1
  rw [show gpLoop values (lineO :: (mid ++ lineC :: suf)) false false =
      replacementBlock values ++ gpLoop values (mid ++ lineC :: suf) true true
    from by simp [gpLoop, hO, hOc]]
  rw [gpLoop_skip values mid _ hmid]
  rw [show gpLoop values (lineC :: suf) true true =
      gpLoop values suf false true from by simp [gpLoop, hC]]
  have hcopy := gpLoop_copy values suf [] true hsuf
  rw [List.append_nil] at hcopy
  rw [hcopy]
  simp [gpLoop]

theorem natDigits_inj (a b : Nat) (h : natDigits a = natDigits b) : a = b := by
  have ha := digitsVal_natDigits_zero a
  rw [h, digitsVal_natDigits_zero] at ha
  exact ha.symm

theorem fmtIndex_inj (a b : Nat) (h : fmtIndex a = fmtIndex b) : a = b := by
  unfold fmtIndex at h
  by_cases ha : a < 10 <;> by_cases hb : b < 10
  · rw [if_pos ha, if_pos hb] at h
    injection h with _ h2
    exact natDigits_inj _ _ h2
  · rw [if_pos ha, if_neg hb] at h
    exact absurd rfl
      (natDigits_head_ne_zero b (by omega) '0' (by rw [← h]; rfl))
  · rw [if_neg ha, if_pos hb] at h
    exact absurd rfl
      (natDigits_head_ne_zero a (by omega) '0' (by rw [h]; rfl))
  · rw [if_neg ha, if_neg hb] at h
    exact natDigits_inj _ _ h

theorem valuesFileName_inj (a b : Nat) (h : valuesFileName a = valuesFileName b) :
    a = b := by
  unfold valuesFileName at h
  exact fmtIndex_inj _ _
    (List.append_cancel_left (List.append_cancel_right h))

theorem valuesLoop_names (lines : List (List Char)) (index : Nat)
    (assoc : List (List Char × List Char)) (arts : List Artifact) :
    ∀ (assoc2 : List (List Char × List Char)) (idx2 : Nat) (arts2 : List Artifact),
      valuesLoop lines index assoc arts = some (assoc2, idx2, arts2) →
      index ≤ idx2 ∧
        arts2.map Artifact.name =
          arts.map Artifact.name ++
            (List.range' (index + 1) (idx2 - index)).map valuesFileName := by
  induction lines, index, assoc, arts using valuesLoop.induct
  all_goals intro assoc2 idx2 arts2 hloop
  case case1 index assoc arts =>
    injection hloop with h
    injection h with h1 h
    injection h with h2 h3
    subst h2
    subst h3
    simp
  case case2 => exact absurd hloop (by simp [valuesLoop])
  case case3 formula line rest index assoc arts hnone =>
    rw [show valuesLoop (formula :: line :: rest) index assoc arts = none from by
      simp [valuesLoop, hnone]] at hloop
    exact absurd hloop (by simp)
  case case4 formula line rest index assoc arts rows hrows ih =>
    have hstep : valuesLoop (formula :: line :: rest) index assoc arts =
        valuesLoop rest (index + 1)
          (dictInsert assoc formula (valuesFileName (index + 1)))
          (arts ++ [⟨valuesFileName (index + 1), rows⟩]) := by
      simp [valuesLoop, hrows]
    rw [hstep] at hloop
    obtain ⟨h1, h2⟩ := ih _ _ _ hloop
    refine ⟨by omega, ?_⟩
    rw [h2, List.map_append]
    simp only [List.map_cons, List.map_nil]
    rw [List.append_assoc]
    congr 1
    have hn : idx2 - index = (idx2 - (index + 1)) + 1 := by omega
    rw [hn, List.range'_succ]
    simp

theorem simsLoop_names (sims : List (List Char))
    (results : List ((List Char × List Char) × (List Char × List Char))) :
    ∀ (index : Nat) (acc : List (List Char × List (List Char × SimEntry)))
      (arts : List Artifact) acc2 arts2,
      simsLoop sims results index acc arts = some (acc2, arts2) →
      ∃ idx2, index ≤ idx2 ∧
        arts2.map Artifact.name =
          arts.map Artifact.name ++
            (List.range' (index + 1) (idx2 - index)).map valuesFileName := by
  induction results with
  | nil =>
    intro index acc arts acc2 arts2 hloop
    injection hloop with h
    injection h with h1 h2
    subst h2
    exact ⟨index, le_refl _, by simp⟩
  | cons r rest ih =>
    intro index acc arts acc2 arts2 hloop
    unfold simsLoop at hloop
    cases hpv : process_values r.2.1 index with
    | none => rw [hpv] at hloop; exact absurd hloop (by simp)
    | some out =>
      obtain ⟨values, idxm, newArts⟩ := out
      rw [hpv] at hloop
      simp only at hloop
      obtain ⟨idx2, hle, hnames⟩ := ih _ _ _ _ _ hloop
      have hpvnames : index ≤ idxm ∧
          newArts.map Artifact.name =
            ([] : List Artifact).map Artifact.name ++
              (List.range' (index + 1) (idxm - index)).map valuesFileName := by
        unfold process_values at hpv
        cases hseg : (pySplit ("Verifying formula".toList) r.2.1)[1]? with
        | none => rw [hseg] at hpv; exact absurd hpv (by simp)
        | some seg =>
          rw [hseg] at hpv
          simp only at hpv
          exact valuesLoop_names _ _ _ _ _ _ _ hpv
      refine ⟨idx2, by omega, ?_⟩
      rw [hnames, List.map_append, hpvnames.2]
      simp only [List.map_nil, List.nil_append, List.append_assoc]
      congr 1
      rw [show idxm + 1 = (index + 1) + 1 * (idxm - index) by omega] at hnames ⊢
      rw [show idx2 - index = (idx2 - idxm) + (idxm - index) by omega]
      exact List.range'_append _ _ _ _ ▸ by
        rw [List.map_append]

theorem print_simulations_names_nodup
    (results : List ((List Char × List Char) × (List Char × List Char)))
    (sims : List (List Char))
    (rep : List (List Char × List (List Char × SimEntry))) (arts : List Artifact)
    (h : print_simulations results sims = some (rep, arts)) :
    (arts.map Artifact.name).Nodup := by
  unfold print_simulations at h
  cases hl : simsLoop sims results 0 [] [] with
  | none => rw [hl] at h; exact absurd h (by simp)
  | some out =>
    obtain ⟨acc, arts'⟩ := out
    rw [hl] at h
    simp only at h
    injection h with h1
    injection h1 with h2 h3
    subst h3
    obtain ⟨idx2, _, hnames⟩ := simsLoop_names sims results 0 [] [] acc arts' hl
    rw [hnames]
    simp only [List.map_nil, List.nil_append]
    exact List.Nodup.map (fun a b hab => valuesFileName_inj a b hab)
      (List.nodup_range' _ _)

theorem print_simulations_sorted
    (results : List ((List Char × List Char) × (List Char × List Char)))
    (sims : List (List Char))
    (rep : List (List Char × List (List Char × SimEntry))) (arts : List Artifact)
    (h : print_simulations results sims = some (rep, arts)) :
    rep.Pairwise (fun a b => listLe a.1 b.1 = true) ∧
      ∀ x ∈ rep, x.2.Pairwise (fun a b => listLe a.1 b.1 = true) := by
  unfold print_simulations at h
  cases hl : simsLoop sims results 0 [] [] with
  | none => rw [hl] at h; exact absurd h (by simp)
  | some out =>
    obtain ⟨acc, arts'⟩ := out
    rw [hl] at h
    simp only at h
    injection h with h1
    injection h1 with h2 h3
    subst h2
    exact ⟨sortReport_sorted_outer acc, sortReport_sorted_inner acc⟩

/-- C1 (amended): when the selected scenario is neither `extensive` nor a
key of the configuration, the run prints `Configuration not found`,
dispatches no Job (no engine invocation occurs) — but the process then
finishes normally with exit code 0, not nonzero. -/
theorem scenario_not_found (config : Config) (scenario : List Char)
    (qs ps ss : List (List Char)) (nq np ns : Bool)
    (hne : scenario ≠ "extensive".toList)
    (habs : config.scenarios.lookup scenario = none) :
    mainAfterSetup config scenario qs ps ss nq np ns =
      ⟨["Configuration not found".toList], 0, 0⟩ := by
  unfold mainAfterSetup generate_projects
  rw [if_neg hne, habs]

/-- C1 counterexample: with a configuration whose only scenario is `base`
and the scenario name `missing`, the error is reported and no Job is
dispatched, but the exit code is 0 — refuting the claimed nonzero exit. -/
theorem scenario_not_found_counterexample :
    mainAfterSetup cfgW ("missing".toList) [] [] [] false false false =
      ⟨["Configuration not found".toList], 0, 0⟩ ∧
    (mainAfterSetup cfgW ("missing".toList) [] [] [] false false false).exitCode
      = 0 := by
  constructor
  · decide
  · decide

theorem scenario_not_found_witness :
    ("missing".toList ≠ "extensive".toList) ∧
    (cfgW.scenarios.lookup ("missing".toList) = none) ∧
    mainAfterSetup cfgW ("missing".toList) [] [] [] false false false =
      ⟨["Configuration not found".toList], 0, 0⟩ :=
  ⟨by decide, by decide,
    scenario_not_found cfgW _ [] [] [] false false false (by decide) (by decide)⟩

/-- C2: for every extensive configuration with `min ≤ max` per component,
the number of variants enumerated equals `get_extensive_length`, which in
turn equals the product of `(max − min + 1)` over every scalar parameter
and vector component, and the enumerated assignments are pairwise
distinct. -/
theorem extensive_sweep_count (c : ExtensiveConfig)
    (hb : ∀ p ∈ componentRanges c, p.1 ≤ p.2) :
    (Nat.cast (generate_extensive_project c).length : Int) =
        get_extensive_length c ∧
      (generate_extensive_project c).Nodup ∧
      get_extensive_length c = componentCount c :=
  ⟨generate_extensive_project_count c hb, generate_extensive_project_nodup c,
    get_extensive_length_eq_componentCount c⟩

theorem extensive_sweep_count_witness :
    (∀ p ∈ componentRanges extCfgW, p.1 ≤ p.2) ∧
      ((Nat.cast (generate_extensive_project extCfgW).length : Int) =
          get_extensive_length extCfgW ∧
        (generate_extensive_project extCfgW).Nodup ∧
        get_extensive_length extCfgW = componentCount extCfgW) :=
  ⟨by decide, extensive_sweep_count extCfgW (by decide)⟩

/-- C3: the variant-naming function is injective for a fixed property
(two distinct assignments never collide), and the assignment is recovered
from the name by the decoder. -/
theorem variant_name_injective (v1 v2 : Variant) (p : List Char) :
    parse_name (gen_name v1 p) = some v1 ∧
      (gen_name v1 p = gen_name v2 p → v1 = v2) := by
  refine ⟨parse_name_gen_name v1 p, fun h => ?_⟩
  have h1 := parse_name_gen_name v1 p
  rw [h, parse_name_gen_name v2 p] at h1
  injection h1 with hv
  exact hv.symm

theorem variant_name_injective_witness :
    parse_name (gen_name variantW ("query_00.txt".toList)) = some variantW ∧
      (gen_name variantW ("query_00.txt".toList) =
          gen_name variantW ("query_00.txt".toList) → variantW = variantW) :=
  variant_name_injective variantW variantW ("query_00.txt".toList)

theorem any_eq_of_perm {α : Type} {l1 l2 : List α} (hp : l1.Perm l2)
    (f : α → Bool) : l1.any f = l2.any f := by
  cases h1 : l1.any f <;> cases h2 : l2.any f
  · rfl
  · obtain ⟨x, hx, hfx⟩ := List.any_eq_true.mp h2
    have hh : l1.any f = true :=
      List.any_eq_true.mpr ⟨x, hp.mem_iff.mpr hx, hfx⟩
    rw [h1] at hh
    exact hh
  · obtain ⟨x, hx, hfx⟩ := List.any_eq_true.mp h1
    have hh : l2.any f = true :=
      List.any_eq_true.mpr ⟨x, hp.mem_iff.mp hx, hfx⟩
    rw [h2] at hh
    exact hh.symm
  · rfl

/-- C4 (amended): all three report builders two-level sort their output
(outer level by variant name, inner level by property key); the query and
probability reports are moreover identical for any two arrival orders of
the same results; the simulation report is NOT arrival-order independent,
because the sequential artifact identifiers stored in its entries are
assigned in completion order (see the counterexample). -/
theorem report_builders_order
    (r1 r2 : List ((List Char × List Char) × (List Char × List Char)))
    (qs ps sims : List (List Char))
    (hp : r1.Perm r2) (hnd : (r1.map Prod.fst).Nodup) :
    print_queries r1 qs = print_queries r2 qs ∧
    print_probabilities r1 ps = print_probabilities r2 ps ∧
    ((print_queries r1 qs).report.Pairwise
        (fun a b => listLe a.1 b.1 = true) ∧
      ∀ x ∈ (print_queries r1 qs).report,
        x.2.Pairwise (fun a b => listLe a.1 b.1 = true)) ∧
    ((print_probabilities r1 ps).Pairwise
        (fun a b => listLe a.1 b.1 = true) ∧
      ∀ x ∈ print_probabilities r1 ps,
        x.2.Pairwise (fun a b => listLe a.1 b.1 = true)) ∧
    (∀ rep arts, print_simulations r1 sims = some (rep, arts) →
      rep.Pairwise (fun a b => listLe a.1 b.1 = true) ∧
        ∀ x ∈ rep, x.2.Pairwise (fun a b => listLe a.1 b.1 = true)) := by
  have hany := any_eq_of_perm hp (fun r => decide (r.2.1 = []))
  refine ⟨?_, ?_, ?_, ?_, ?_⟩
  · unfold print_queries
    rw [buildReport_perm _ _ _ hp hnd, hany]
  · unfold print_probabilities
    exact buildReport_perm _ _ _ hp hnd
  · exact ⟨sortReport_sorted_outer _, sortReport_sorted_inner _⟩
  · exact ⟨sortReport_sorted_outer _, sortReport_sorted_inner _⟩
  · intro rep arts h
    exact print_simulations_sorted r1 sims rep arts h

/-- C4 counterexample: the same two simulation results arriving in the two
possible orders (a permutation with distinct keys) yield different
simulation reports — the artifact identifiers swap. -/
theorem report_builders_order_counterexample :
    simResultsA.Perm simResultsB ∧
    (simResultsA.map Prod.fst).Nodup ∧
    print_simulations simResultsA simFormulasW ≠
      print_simulations simResultsB simFormulasW := by
  refine ⟨by decide, by decide, by decide⟩

theorem report_builders_order_witness :
    print_queries simResultsA queryFormulasW =
        print_queries simResultsB queryFormulasW ∧
      print_probabilities simResultsA probFormulasW =
        print_probabilities simResultsB probFormulasW :=
  ⟨(report_builders_order simResultsA simResultsB queryFormulasW probFormulasW
      simFormulasW (by decide) (by decide)).1,
    (report_builders_order simResultsA simResultsB queryFormulasW probFormulasW
      simFormulasW (by decide) (by decide)).2.1⟩

/-- C5: every (variant, property) pair in the submitted results dict has
exactly one entry in the probability report, and when the success marker is
absent from that job's stdout the entry carries the zeroed placeholder
`{outcome: false, interval: {0,0}, confidence: 0, range: {0,0}, mean: 0,
samples: []}` rather than being omitted. -/
theorem probability_report_complete
    (results : List ((List Char × List Char) × (List Char × List Char)))
    (probs : List (List Char)) (p q res t : List Char)
    (hnd : (results.map Prod.fst).Nodup)
    (hmem : ((p, q), (res, t)) ∈ results) :
    entryCount (print_probabilities results probs) p q = 1 ∧
      (containsSub res satisfiedMarker = false →
        ∃ inner, (p, inner) ∈ print_probabilities results probs ∧
          (q, ⟨lookupFormula probs q, some probPlaceholder, t⟩) ∈ inner) := by
  constructor
  · exact buildReport_entryCount (probEntry probs) results p q hnd
      (List.mem_map.mpr ⟨_, hmem, rfl⟩)
  · intro hfail
    obtain ⟨inner, h1, h2⟩ :=
      buildReport_mem (probEntry probs) results p q (res, t) hnd hmem
    refine ⟨inner, h1, ?_⟩
    have hdec : decodeProbResult res = some probPlaceholder := by
      unfold decodeProbResult
      rw [hfail]
      simp
    have hent : probEntry probs q res t =
        ⟨lookupFormula probs q, some probPlaceholder, t⟩ := by
      unfold probEntry
      rw [hdec]
    rw [← hent]
    exact h2

theorem probability_report_complete_witness :
    (probResultsW.map Prod.fst).Nodup ∧
    ((("p1".toList, "00".toList),
      ("Formula is NOT satisfied.".toList, "0.10 seconds".toList))
        ∈ probResultsW) ∧
    entryCount (print_probabilities probResultsW probFormulasW)
      ("p1".toList) ("00".toList) = 1 ∧
    (containsSub ("Formula is NOT satisfied.".toList) satisfiedMarker = false →
      ∃ inner, (("p1".toList), inner) ∈
          print_probabilities probResultsW probFormulasW ∧
        (("00".toList), ⟨lookupFormula probFormulasW ("00".toList),
          some probPlaceholder, "0.10 seconds".toList⟩) ∈ inner) :=
  ⟨by decide, by decide,
    probability_report_complete probResultsW probFormulasW _ _ _ _
      (by decide) (by decide)⟩

/-- C6: for a query whose stdout is nonempty but lacks the success marker,
the decoded entry stored in the report has `result = false`, yet the
run-level `failed` flag stays `false` and the success banner is chosen: the
code tests `if not result:` on the raw stdout string (emptiness), not on
the decoded outcome, contradicting the claimed equivalence. -/
theorem query_failed_flag_bug :
    (print_queries queryResultsW queryFormulasW).report =
      [(("p1".toList), [(("00".toList),
        ⟨some ("A[] not deadlock".toList), false, "0.10 seconds".toList⟩)])] ∧
    (print_queries queryResultsW queryFormulasW).failed = false ∧
    (print_queries queryResultsW queryFormulasW).banner =
      "All the properties are satisfied!".toList := by
  refine ⟨by decide, by decide, by decide⟩

/-- C7 counterexample: the code deletes tabs
(`replace('\t', '')`) instead of collapsing them to a single space as the
claim states: on the formula `A<TAB>B` the written text is `AB`, not
`A B`. -/
theorem normalization_tab_counterexample :
    normalizeFormula ("A\tB".toList) = "AB".toList ∧
    claimNormalize ("A\tB".toList) = "A B".toList ∧
    normalizeFormula ("A\tB".toList) ≠ claimNormalize ("A\tB".toList) := by
  refine ⟨by decide, by decide, by decide⟩

theorem normalize_eq_amended (s : List Char) :
    normalizeFormula s = amendedNormalize s := by
  induction s with
  | nil => rfl
  | cons c rest ih =>
    unfold normalizeFormula amendedNormalize at ih ⊢
    simp only [ne_eq, decide_not] at ih
    simp only [List.map_cons, List.filter_cons, List.flatMap_cons]
    by_cases h1 : c = '\n' <;> by_cases h2 : c = '\t'
    · rw [h1] at h2
      exact absurd h2 (by decide)
    · subst h1
      simp [ih]
    · subst h2
      simp [ih]
    · simp [h1, h2, ih]

/-- C7 (amended): the text written to each property file is the original
formula with every newline replaced by a single space and every TAB
REMOVED, followed by one trailing newline; the same normalization is
applied uniformly to all three property kinds. -/
theorem property_normalization (item : List Char) (formulas : List (List Char))
    (prefx : List Char) :
    normalizeFormula item = amendedNormalize item ∧
    get_queries formulas =
      (formulas.filter (fun f => ("A".toList).isPrefixOf f)).map amendedNormalize ∧
    get_probabilities formulas =
      (formulas.filter (fun f => ("Pr".toList).isPrefixOf f)).map amendedNormalize ∧
    get_simulations formulas =
      (formulas.filter (fun f => ("simulate".toList).isPrefixOf f)).map
        amendedNormalize ∧
    (generate_properties_files (get_queries formulas) prefx).map Prod.snd =
      (formulas.filter (fun f => ("A".toList).isPrefixOf f)).map
        (fun f => amendedNormalize f ++ ['\n']) := by
  refine ⟨normalize_eq_amended item, ?_, ?_, ?_, ?_⟩
  · exact List.map_congr_left (fun f _ => normalize_eq_amended f)
  · exact List.map_congr_left (fun f _ => normalize_eq_amended f)
  · exact List.map_congr_left (fun f _ => normalize_eq_amended f)
  · unfold generate_properties_files
    rw [List.map_map]
    rw [show (Prod.snd ∘ fun p : Nat × List Char =>
        (prefx ++ '_' :: (fmtIndex p.1 ++ ".txt".toList), p.2 ++ ['\n'])) =
      ((fun f : List Char => f ++ ['\n']) ∘ Prod.snd) from rfl]
    rw [← List.map_map, List.enum_map_snd]
    unfold get_queries parse_project
    rw [List.map_map]
    exact List.map_congr_left (fun f _ => by
      show normalizeFormula f ++ ['\n'] = amendedNormalize f ++ ['\n']
      rw [normalize_eq_amended f])

/-- C8: on the sample stdout whose last lines are `[0.10,0.20] (95% CI)`
and `Values in [0,10] mean=5 steps=1: 1 2 3` (with the success marker
present), the decoded result is exactly
`{outcome: true, interval: {0.10, 0.20}, confidence: 0.95,
values: {range: {0, 10}, mean: 5.0, samples: [1, 2, 3]}}`. -/
theorem probability_decode_example :
    decodeProbResult probStdoutW =
      some ⟨true, ⟨1/10, 1/5⟩, 19/20, ⟨⟨0, 10⟩, 5, [1, 2, 3]⟩⟩ := by
  with_unfolding_all decide

/-- C9: on a stdout block whose trace line is `(1.0,2) (3.5,4)`, the
decoded artifact holds rows `(1,2)` and `(3,4)` (x truncated at the dot),
rendered as a table with header `x,y`; the artifact gets the next
sequential name `values_01.csv`; the report entry stores the formula text
and that artifact identifier rather than the raw series; and across any
run the artifact names produced are pairwise distinct. -/
theorem simulation_decode_example :
    (process_values simStdoutW 0 =
        some ([("F".toList, "values_01.csv".toList)], 1,
          [⟨"values_01.csv".toList, [(1, 2), (3, 4)]⟩]) ∧
      artifactText ⟨"values_01.csv".toList, [(1, 2), (3, 4)]⟩ =
        ("x,y\n1,2\n3,4\n").toList ∧
      print_simulations
          [(("p1".toList, "00".toList), (simStdoutW, "t".toList))]
          simFormulasW =
        some ([(("p1".toList), [(("00".toList),
          ⟨some (("simulate 1 [<=300] \x7bc\x7d").toList), false,
            [("F".toList, "values_01.csv".toList)], "t".toList⟩)])],
          [⟨"values_01.csv".toList, [(1, 2), (3, 4)]⟩])) ∧
    (∀ results sims rep arts,
      print_simulations results sims = some (rep, arts) →
      (arts.map Artifact.name).Nodup) := by
  refine ⟨⟨by decide, by decide, by decide⟩, ?_⟩
  intro results sims rep arts h
  exact print_simulations_names_nodup results sims rep arts h

theorem simulation_decode_example_witness :
    (([⟨"values_01.csv".toList, [(1, 2), (3, 4)]⟩] : List Artifact).map
      Artifact.name).Nodup :=
  simulation_decode_example.2
    [(("p1".toList, "00".toList), (simStdoutW, "t".toList))] simFormulasW
    [(("p1".toList), [(("00".toList),
      ⟨some (("simulate 1 [<=300] \x7bc\x7d").toList), false,
        [("F".toList, "values_01.csv".toList)], "t".toList⟩)])]
    [⟨"values_01.csv".toList, [(1, 2), (3, 4)]⟩]
    (by decide)

/-- C10: for every template whose marker lines are unique (one line holds
`<system>`, a later line holds `</system>`, no other line holds either
marker), the generated variant document is exactly: every line before the
opening marker unchanged with its line break, then the replacement block,
then every line after the closing marker unchanged with its line break —
only the marked region is replaced. -/
theorem template_frame (values : Variant) (pre mid suf : List (List Char))
    (lineO lineC : List Char)
    (hpre : ∀ l ∈ pre, containsSub l sysOpenTag = false)
    (hmid : ∀ l ∈ mid, containsSub l sysCloseTag = false)
    (hsuf : ∀ l ∈ suf, containsSub l sysOpenTag = false)
    (hO : containsSub lineO sysOpenTag = true)
    (hOc : containsSub lineO sysCloseTag = false)
    (hC : containsSub lineC sysCloseTag = true) :
    generate_project (pre ++ lineO :: (mid ++ lineC :: suf)) values =
      joinLines pre ++ (blockText values ++ joinLines suf) := by
  unfold generate_project joinLines blockText
  rw [gpLoop_frame values pre mid suf lineO lineC hpre hmid hsuf hO hOc hC]
  rw [List.flatMap_append, List.flatMap_append]
  congr 1
  · rw [List.flatMap_map]
    rfl
  · congr 1
    rw [List.flatMap_map]
    rfl

theorem template_frame_witness :
    (∀ l ∈ tmplPre, containsSub l sysOpenTag = false) ∧
    (∀ l ∈ tmplMid, containsSub l sysCloseTag = false) ∧
    (∀ l ∈ tmplSuf, containsSub l sysOpenTag = false) ∧
    containsSub tmplLineO sysOpenTag = true ∧
    containsSub tmplLineO sysCloseTag = false ∧
    containsSub tmplLineC sysCloseTag = true ∧
    generate_project (tmplPre ++ tmplLineO :: (tmplMid ++ tmplLineC :: tmplSuf))
        variantW =
      joinLines tmplPre ++ (blockText variantW ++ joinLines tmplSuf) :=
  ⟨by decide, by decide, by decide, by decide, by decide, by decide,
    template_frame variantW tmplPre tmplMid tmplSuf tmplLineO tmplLineC
      (by decide) (by decide) (by decide) (by decide) (by decide) (by decide)⟩

end FM
